import Mathlib

/-!
# Verification of the platypus observable context core (`ContextManager`)

Shallow embedding of `src/framework/framework/observable/contextmanager/contextmanager.ts`.

Modelling conventions, fixed once for the whole development:

* JavaScript values are the structural tree `JsVal`.  The strict-equality
  operator `===` is modelled as structural equality `=` / `decide`-equality on
  `JsVal`; on primitives this is exact, and on objects it agrees with JS on the
  identical-reference case (every JS-identical pair is structurally equal).
* Dotted-path identifiers ("a.b.c") are modelled as their segment lists
  `["a","b","c"]` (`Ident`).  Segments produced by `String.split('.')` never
  contain a dot, so the correspondence with the source's joined strings is
  bijective; `identifier + '.length'` becomes `id ++ ["length"]`, and
  `binding.slice(identifier.length + 1)` becomes `binding.drop id.length`.
* Accessor pairs installed by `Object.defineProperty` on data objects are
  tracked in an identifier-keyed table `CMState.interceptors` holding the
  captured closure variables (`value`, `isDefined`, the captured
  `isArray(immediateContext)`).  This represents per-object accessors for
  tree-shaped (unaliased) contexts, which is the data shape the claims range
  over.
* Listener functions are opaque: a registration carries its owner `uid`
  (as in the source's `IListener`) plus a listener id `lid` naming the
  function object; listener *bodies* are an environment `Beh` mapping a `lid`
  to a possibly-throwing but registry-pure behaviour.  Exceptions are `Except
  Unit`; JS exceptions do not roll back state, so every operation returns its
  post-state alongside the `Except` outcome.
* The helpers `isNull`, `isUndefined`, `isObject`/`isArray`, `isEmpty`, `noop`
  and `deepExtend` are used by the source but their defining file is not part
  of the provided sources; they are modelled from the spec (which pins their
  behaviour: `isNull` treats `null` and `undefined` alike, path resolution
  "short-circuits on null/undefined", disposal-with-persistence takes "a deep
  copy").
-/

mutual
/-- JavaScript-style runtime values, as a structural value tree. -/
inductive JsVal where
  | undef : JsVal
  | jsnull : JsVal
  | jsbool : Bool → JsVal
  | jsnum : Int → JsVal
  | jsstr : String → JsVal
  | jsobj : JsFields → JsVal
  | jsarr : JsElems → JsVal
deriving DecidableEq, Repr

/-- Fields of a JavaScript object, in insertion order. -/
inductive JsFields where
  | nil : JsFields
  | cons : String → JsVal → JsFields → JsFields
deriving DecidableEq, Repr

/-- Elements of a JavaScript array, in order. -/
inductive JsElems where
  | nil : JsElems
  | cons : JsVal → JsElems → JsElems
deriving DecidableEq, Repr
end

/-- Object fields as an association list. -/
def JsFields.toList : JsFields → List (String × JsVal)
  | .nil => []
  | .cons k v rest => (k, v) :: rest.toList

/-- Array elements as a list. -/
def JsElems.toList : JsElems → List JsVal
  | .nil => []
  | .cons v rest => v :: rest.toList

/-- Object fields from an association list. -/
def JsFields.ofList : List (String × JsVal) → JsFields
  | [] => .nil
  | (k, v) :: rest => .cons k v (JsFields.ofList rest)

/-- Array elements from a list. -/
def JsElems.ofList : List JsVal → JsElems
  | [] => .nil
  | v :: rest => .cons v (JsElems.ofList rest)

/-- Convenience constructor: an object value from an association list. -/
def JsVal.obj (l : List (String × JsVal)) : JsVal := .jsobj (JsFields.ofList l)

/-- Convenience constructor: an array value from a list. -/
def JsVal.arr (l : List JsVal) : JsVal := .jsarr (JsElems.ofList l)

/-- Modelled from the spec: the source's `isNull` helper (not under `src/`);
per §4.1/§7 the framework treats `null` and `undefined` alike as "missing". -/
def isNull : JsVal → Bool
  | .undef => true
  | .jsnull => true
  | _ => false

/-- Modelled from the spec: the source's `isUndefined` helper (not under
`src/`); true exactly on `undefined`. -/
def isUndefined : JsVal → Bool
  | .undef => true
  | _ => false

/-- `isArray` on a value (Array.isArray). -/
def isArrayVal : JsVal → Bool
  | .jsarr _ => true
  | _ => false

/-- Modelled from the spec: the source's `isObject(x) || isArray(x)` test used
at every call site in the context manager — a non-null object or an array. -/
def isObjectOrArray : JsVal → Bool
  | .jsobj _ => true
  | .jsarr _ => true
  | _ => false

/-- Plain JavaScript property read `base[key]` on a non-null base: object
fields by key; arrays expose `length` and numeric indices; any other access
(including on primitives) yields `undefined`. -/
def getProp (v : JsVal) (k : String) : JsVal :=
  match v with
  | .jsobj fs =>
      match fs.toList.lookup k with
      | some w => w
      | none => .undef
  | .jsarr es =>
      if k = "length" then .jsnum es.toList.length
      else
        match k.toNat? with
        | some i => es.toList.getD i .undef
        | none => .undef
  | _ => JsVal.undef

/-- JavaScript property read including the TypeError on a null/undefined
base: `null[k]` and `undefined[k]` throw. -/
def getPropE (v : JsVal) (k : String) : Except Unit JsVal :=
  match v with
  | .undef => .error ()
  | .jsnull => .error ()
  | _ => .ok (getProp v k)

/-- JavaScript object-key association lists (used for every `IObject<...>`
registry in the source).  Keys are unique; `aset` updates in place or appends,
matching JS insertion-order key semantics. -/
def alook {κ α : Type} [DecidableEq κ] : List (κ × α) → κ → Option α
  | [], _ => none
  | (k0, v0) :: rest, k => if k0 = k then some v0 else alook rest k

/-- `m[k] = v`: update the existing entry in place, else append. -/
def aset {κ α : Type} [DecidableEq κ] : List (κ × α) → κ → α → List (κ × α)
  | [], k, v => [(k, v)]
  | (k0, v0) :: rest, k, v =>
      if k0 = k then (k, v) :: rest else (k0, v0) :: aset rest k v

/-- `delete m[k]`. -/
def adel {κ α : Type} [DecidableEq κ] : List (κ × α) → κ → List (κ × α)
  | [], _ => []
  | (k0, v0) :: rest, k =>
      if k0 = k then adel rest k else (k0, v0) :: adel rest k

/-- `Object.keys`, in insertion order. -/
def akeys {κ α : Type} (m : List (κ × α)) : List κ := m.map Prod.fst

/-- A dotted-path identifier, as its segment list. -/
abbrev Ident := List String

/-- A registration entry (`IListener`): the owner uid plus the identity `lid`
of the registered listener function. -/
structure IListener where
  uid : String
  lid : Nat
deriving DecidableEq, Repr

/-- Listener bodies: an environment giving each listener function id a
possibly-throwing behaviour of the `(value, oldValue)` arguments. -/
abbrev Beh := Nat → JsVal → JsVal → Except Unit Unit

/-- The closure state of one installed accessor pair: which installer built it
(`__defineObject` vs `__definePrimitive`), the captured `value`, the captured
`isDefined` flag (primitive installer only) and the captured
`isArray(immediateContext)` of the object it is installed on. -/
structure Interceptor where
  isObjectKind : Bool
  value : JsVal
  isDefined : Bool
  ctxIsArray : Bool
deriving DecidableEq, Repr

/-- Per-instance `ContextManager` state: `context`, `__identifiers`,
`__identifierHash`, `__contextObjects`, `__isArrayFunction`,
`__observedIdentifier`, plus the table of installed accessors. -/
structure CMState where
  context : JsVal
  identifiers : List (Ident × List IListener)
  identifierHash : List (Ident × List Ident)
  contextObjects : List (Ident × JsVal)
  isArrayFunction : Bool
  observedIdentifier : Option Ident
  interceptors : List (Ident × Interceptor)
deriving DecidableEq, Repr

/-- A freshly constructed manager bound to a context. -/
def CMState.fresh (ctx : JsVal) : CMState :=
  { context := ctx, identifiers := [], identifierHash := [], contextObjects := []
    isArrayFunction := false, observedIdentifier := none, interceptors := [] }

/-- The structured event delivered to array-mutation callbacks
(`IArrayMethodInfo`). -/
structure ArrayMethodInfo where
  method : String
  returnValue : JsVal
  oldArray : List JsVal
  newArray : List JsVal
  arguments : List JsVal
deriving DecidableEq, Repr

/-- Observable events of a run: a listener invocation by `_execute`, an
array-mutation callback invocation by the array-method wrapper, or an
`$ExceptionStatic.warn` diagnostic. -/
inductive TraceEv where
  | exec (l : IListener) (value oldValue : JsVal)
  | arrcb (uid : String) (info : ArrayMethodInfo)
  | warn (id : Ident)
deriving DecidableEq, Repr

/-- Static (`ContextManager.__controls` / `observedArrayListeners`) state
shared by all instances: the owner→identifier index of remove listeners (each
stored remove listener is `_removeCallback` bound to a manager instance,
recorded by that instance's heap id), the global array-mutation table (uid →
callback function id), and the set of identifiers whose array instance
currently carries the mutating-method instrumentation. -/
structure SState where
  controls : List (String × List (Ident × List Nat))
  arrayListeners : List (Ident × List (String × Nat))
  instrumented : List Ident
deriving DecidableEq, Repr

/-- Empty static state. -/
def SState.empty : SState := { controls := [], arrayListeners := [], instrumented := [] }

namespace ContextManager

/-- The reverse `splice` loop of `_removeCallback`: remove every callback
object whose `uid` matches.  Iterating from the end and splicing each match
removes exactly the uid-matched entries, preserving the order of the rest. -/
def spliceUid : List IListener → String → List IListener
  | [], _ => []
  | c :: rest, uid =>
      if c.uid = uid then spliceUid rest uid else c :: spliceUid rest uid

/-- `_removeCallback(identifier, uid)`: filter uid-matched callbacks out of
`__identifiers[identifier]`; if the remaining list is empty, delete the
`__identifierHash` and `__contextObjects` entries (the `__identifiers` key
itself is reassigned the emptied array, not deleted). -/
def removeCallback (s : CMState) (id : Ident) (uid : String) : CMState :=
  match alook s.identifiers id with
  | none => s
  | some cbs =>
      let filtered := spliceUid cbs uid
      let s := { s with identifiers := aset s.identifiers id filtered }
      if filtered.isEmpty then
        { s with identifierHash := adel s.identifierHash id,
                 contextObjects := adel s.contextObjects id }
      else s

/-- `_hasIdentifier(identifier)`: `!isEmpty(this.__identifiers[identifier])`
(missing and empty lists both count as "not yet observed"). -/
def hasIdentifier (s : CMState) (id : Ident) : Bool :=
  match alook s.identifiers id with
  | none => false
  | some l => !l.isEmpty

/-- The listener loop of `_execute`: call each registered listener in order;
a throwing listener's exception propagates, so the remaining listeners are not
reached.  Returns the invocations performed and the outcome. -/
def execList (beh : Beh) (v old : JsVal) : List IListener → List TraceEv × Except Unit Unit
  | [] => ([], .ok ())
  | l :: rest =>
      match beh l.lid v old with
      | .ok _ =>
          let z := execList beh v old rest
          (.exec l v old :: z.1, z.2)
      | .error e => ([.exec l v old], .error e)

/-- `_execute(identifier, value, oldValue)`: update `__contextObjects`
(deleting the entry when the new value is `undefined`), then invoke every
listener under `__identifiers[identifier]` in registration order.  There is no
catch around the loop. -/
def execute (beh : Beh) (s : CMState) (id : Ident) (v old : JsVal) :
    CMState × List TraceEv × Except Unit Unit :=
  let co := aset s.contextObjects id v
  let co := if isUndefined v then adel co id else co
  let s := { s with contextObjects := co }
  match alook s.identifiers id with
  | none => (s, [], .ok ())
  | some ls => (s, execList beh v old ls)

/-- `__addHashValues(identifier)`: register the identifier in the cascade hash
under each of its proper prefixes, creating empty entries along the way. -/
def addHashLoop (s : CMState) (id : Ident) (ident : Ident) : List String → CMState
  | [] => s
  | k :: rest =>
      let ident := ident ++ [k]
      let s :=
        match alook s.identifierHash ident with
        | none => { s with identifierHash := aset s.identifierHash ident [] }
        | some _ => s
      let s :=
        if ident ≠ id then
          let hv2 := (alook s.identifierHash ident).getD [] ++ [id]
          { s with identifierHash := aset s.identifierHash ident hv2 }
        else s
      addHashLoop s id ident rest

/-- `__addHashValues(identifier)` entry: the first segment is handled before
the `while` loop (with an early return when the identifier is a single
segment and its hash entry was absent). -/
def addHashValues (s : CMState) (id : Ident) : CMState :=
  match id with
  | [] => s
  | k0 :: rest =>
      let ident : Ident := [k0]
      match alook s.identifierHash ident with
      | none =>
          let s := { s with identifierHash := aset s.identifierHash ident [] }
          if rest.isEmpty then s
          else
            let hv2 := (alook s.identifierHash ident).getD [] ++ [id]
            let s := { s with identifierHash := aset s.identifierHash ident hv2 }
            addHashLoop s id ident rest
      | some hv =>
          let s := { s with identifierHash := aset s.identifierHash ident (hv ++ [id]) }
          addHashLoop s id ident rest

/-- `__add(identifier, observableListener)`: push the registration onto
`__identifiers[identifier]` (creating the list if absent) and populate the
cascade hash on the identifier's first appearance there. -/
def addJ (s : CMState) (id : Ident) (l : IListener) : CMState :=
  let cbs := (alook s.identifiers id).getD []
  let s := { s with identifiers := aset s.identifiers id (cbs ++ [l]) }
  match alook s.identifierHash id with
  | none => addHashValues s id
  | some _ => s

end ContextManager

/-- Static `ContextManager.pushRemoveListener(identifier, uid, listener)`:
record a remove listener (here: the heap id of the manager instance whose
bound `_removeCallback` it is) in the owner→identifier index. -/
def pushRemoveListener (controls : List (String × List (Ident × List Nat)))
    (id : Ident) (uid : String) (tok : Nat) : List (String × List (Ident × List Nat)) :=
  let control := (alook controls uid).getD []
  let listeners := (alook control id).getD []
  aset controls uid (aset control id (listeners ++ [tok]))

/-- Static `ContextManager.removeIdentifier(uids, identifier)`: drop the
identifier from each listed owner's index entry. -/
def removeIdentifierS (controls : List (String × List (Ident × List Nat)))
    (uids : List String) (id : Ident) : List (String × List (Ident × List Nat)) :=
  uids.foldl
    (fun cs uid =>
      match alook cs uid with
      | none => cs
      | some m => aset cs uid (adel m id))
    controls

namespace ContextManager

/-- One step of a returned de-registration closure (`removeObservableCallback`
in `_addObservableListener`): `ContextManager.removeIdentifier([uid],
identifier)` followed by `contextManagerCallback(identifier, uid)` (the bound
`_removeCallback`). -/
def applyRemStep (g : SState) (s : CMState) (step : Ident × String) : SState × CMState :=
  let g := { g with controls := removeIdentifierS g.controls [step.2] step.1 }
  (g, removeCallback s step.1 step.2)

/-- A full de-registration closure, as the ordered steps it performs
(`observe` composes the absolute-identifier remover with the
observed-identifier remover). -/
def applyRemover (g : SState) (s : CMState) (steps : List (Ident × String)) :
    SState × CMState :=
  steps.foldl (fun p step => applyRemStep p.1 p.2 step) (g, s)

/-- `_addObservableListener(absoluteIdentifier, observableListener)`:
`__add` the registration, push the bound `_removeCallback` into the static
owner index, and return the data of the de-registration closure. -/
def addObservableListener (g : SState) (s : CMState) (self : Nat) (id : Ident)
    (l : IListener) : SState × CMState × (Ident × String) :=
  let s := addJ s id l
  let g := { g with controls := pushRemoveListener g.controls id l.uid self }
  (g, s, (id, l.uid))

end ContextManager

namespace ContextManager

/-- A property read through any accessor installed at the identifier: the
getter returns the captured closure value and records the identifier in
`__observedIdentifier`; otherwise it is a plain read of the given object. -/
def readProp (s : CMState) (id : Ident) (ctx : JsVal) (key : String) : CMState × JsVal :=
  match alook s.interceptors id with
  | some itc => ({ s with observedIdentifier := some id }, itc.value)
  | none => (s, getProp ctx key)

/-- As `readProp` but surfacing the TypeError of reading off a null/undefined
base when no accessor is installed. -/
def readPropE (s : CMState) (id : Ident) (ctx : JsVal) (key : String) :
    CMState × Except Unit JsVal :=
  match alook s.interceptors id with
  | some itc => ({ s with observedIdentifier := some id }, .ok itc.value)
  | none => (s, getPropE ctx key)

/-- `__defineObject(identifier, immediateContext, key)` as an installer: read
the current value (through any existing accessor) and install the object-kind
accessor pair capturing it. -/
def defineObjectInstall (s : CMState) (id : Ident) (ctx : JsVal) (key : String) : CMState :=
  let z := readProp s id ctx key
  { z.1 with interceptors := aset z.1.interceptors id ⟨true, z.2, !isNull z.2, isArrayVal ctx⟩ }

/-- `__definePrimitive(identifier, immediateContext, key)` as an installer:
read the current value and the `isDefined` flag, skip installation entirely
for an array's `length`, else install the primitive-kind accessor pair. -/
def definePrimitiveInstall (s : CMState) (id : Ident) (ctx : JsVal) (key : String) : CMState :=
  let z := readProp s id ctx key
  if isArrayVal ctx && key = "length" then z.1
  else { z.1 with
           interceptors := aset z.1.interceptors id ⟨false, z.2, !isNull z.2, isArrayVal ctx⟩ }

/-- `_define(identifier, immediateContext, key)`: choose the object or
primitive installer by the current value's type. -/
def defineM (s : CMState) (id : Ident) (ctx : JsVal) (key : String) : CMState :=
  let z := readProp s id ctx key
  if isObjectOrArray z.2 then defineObjectInstall z.1 id ctx key
  else definePrimitiveInstall z.1 id ctx key

end ContextManager

/-- The `{newValue, oldValue}` pair produced by `_getValues`. -/
structure ValuePair where
  newValue : JsVal
  oldValue : JsVal
deriving DecidableEq, Repr

namespace ContextManager

/-- The `while (split.length > 1)` walk of `_getValues`, carrying
`(newRootContext, doNew)` and `(oldRootContext, doOld)`; reading a property
off a null/undefined root while its flag is still set throws. -/
def getValuesLoop : List String → JsVal → Bool → JsVal → Bool → Except Unit (Option ValuePair)
  | [], _, _, _, _ => .ok (some ⟨.undef, .undef⟩)
  | [p], n, _, o, _ =>
      .ok (some ⟨(if isNull n then .undef else getProp n p),
                 (if isNull o then .undef else getProp o p)⟩)
  | p :: q :: rest, n, doN, o, doO =>
      let stepN : Except Unit (JsVal × Bool) :=
        if doN then
          match getPropE n p with
          | .error e => .error e
          | .ok v => .ok (v, !isNull v)
        else .ok (n, false)
      match stepN with
      | .error e => .error e
      | .ok (n2, doN2) =>
          let stepO : Except Unit (JsVal × Bool) :=
            if doO then
              match getPropE o p with
              | .error e => .error e
              | .ok v => .ok (v, !isNull v)
            else .ok (o, false)
          match stepO with
          | .error e => .error e
          | .ok (o2, doO2) =>
              if !(doN2 || doO2) then .ok none
              else getValuesLoop (q :: rest) n2 doN2 o2 doO2

/-- `_getValues(split, newRootContext, oldRootContext)`: resolve the old and
new values of a child property under a changed parent, returning `null`
(`Option.none`) when both sides die on a null intermediate. -/
def getValuesE (split : List String) (newRoot oldRoot : JsVal) :
    Except Unit (Option ValuePair) :=
  getValuesLoop split newRoot true oldRoot true

/-- The tail shared by both branches of the `_notifyChildProperties` loop
body: memoize the child pair under the full suffix, re-install interception
when the new parent/child is resolvable, then `_execute` the binding. -/
def notifyFinish (beh : Beh) (s : CMState) (binding : Ident)
    (property : List String) (key : String) (newParent newChild oldChild : JsVal)
    (values : List (List String × Option ValuePair)) :
    CMState × List (List String × Option ValuePair) × List TraceEv × Except Unit Unit :=
  let values := aset values property (some ⟨newChild, oldChild⟩)
  let s :=
    if !(isNull newParent || isUndefined newChild) then defineM s binding newParent key
    else s
  let z := execute beh s binding newChild oldChild
  (z.1, values, z.2)

/-- One iteration of the `_notifyChildProperties` loop body for a single
binding: resolve the parent values (memoized under the suffix path), then
`_execute` the binding (via `notifyFinish` in the resolvable cases, directly
with `null`s when `_getValues` returned `null`).  A `.error` outcome makes the
loop stop and propagate. -/
def notifyStep (beh : Beh) (id : Ident) (newV oldV : JsVal) (s : CMState)
    (values : List (List String × Option ValuePair)) (binding : Ident) :
    CMState × List (List String × Option ValuePair) × List TraceEv × Except Unit Unit :=
  let property := binding.drop id.length
  let key := property.getLastD ""
  let split := property.dropLast
  if split.isEmpty then
    let newParent := newV
    let oldParent := oldV
    let newChild := if isNull newParent then newParent else getProp newParent key
    let oldChild := if isNull oldParent then oldParent else getProp oldParent key
    notifyFinish beh s binding property key newParent newChild oldChild values
  else
    let fetched : Except Unit (Option ValuePair × List (List String × Option ValuePair)) :=
      match alook values split with
      | some (some vp) => .ok (some vp, values)
      | _ =>
          match getValuesE split newV oldV with
          | .error e => .error e
          | .ok none => .ok (none, aset values split none)
          | .ok (some vp) => .ok (some vp, aset values split (some vp))
    match fetched with
    | .error e => (s, values, [], .error e)
    | .ok (none, values) =>
        let z := execute beh s binding .jsnull .jsnull
        (z.1, values, z.2)
    | .ok (some vp, values) =>
        let newParent := vp.newValue
        let oldParent := vp.oldValue
        let newChild := if isNull newParent then JsVal.jsnull else getProp newParent key
        let oldChild := if isNull oldParent then JsVal.jsnull else getProp oldParent key
        notifyFinish beh s binding property key newParent newChild oldChild values

/-- The per-binding loop of `_notifyChildProperties` over
`__identifierHash[identifier]`, with the `values` memo keyed by suffix path.
A listener exception aborts the remaining bindings and propagates. -/
def notifyLoop (beh : Beh) (id : Ident) (newV oldV : JsVal) :
    CMState → List (List String × Option ValuePair) → List Ident →
    CMState × List TraceEv × Except Unit Unit
  | s, _, [] => (s, [], .ok ())
  | s, values, binding :: rest =>
      let st := notifyStep beh id newV oldV s values binding
      match st.2.2.2 with
      | .error e => (st.1, st.2.2.1, .error e)
      | .ok _ =>
          let z := notifyLoop beh id newV oldV st.1 st.2.1 rest
          (z.1, st.2.2.1 ++ z.2.1, z.2.2)

/-- `_notifyChildProperties(identifier, newValue, oldValue)`: walk the cascade
hash for the identifier, recomputing and notifying each dependent binding. -/
def notifyChildProperties (beh : Beh) (s : CMState) (id : Ident) (newV oldV : JsVal) :
    CMState × List TraceEv × Except Unit Unit :=
  match alook s.identifierHash id with
  | none => (s, [], .ok ())
  | some mappings =>
      if mappings.isEmpty then
        ({ s with identifierHash := adel s.identifierHash id }, [], .ok ())
      else notifyLoop beh id newV oldV s [] mappings

/-- The setter installed by `__defineObject`: no-op on strict-equal
assignment; store the new value; suppress dispatch during an array-method
call; otherwise read the cascade-hash length (a TypeError when the entry was
deleted), `_execute`, and cascade to children when any exist. -/
def setObjectProp (beh : Beh) (s : CMState) (id : Ident) (itc : Interceptor)
    (newValue : JsVal) : CMState × List TraceEv × Except Unit Unit :=
  if itc.value = newValue then (s, [], .ok ())
  else
    let oldValue := itc.value
    let s := { s with interceptors := aset s.interceptors id { itc with value := newValue } }
    if s.isArrayFunction then (s, [], .ok ())
    else
      match alook s.identifierHash id with
      | none => (s, [], .error ())
      | some children =>
          let z := execute beh s id newValue oldValue
          match z.2.2 with
          | .error e => (z.1, z.2.1, .error e)
          | .ok _ =>
              if children.length > 0 then
                let w := notifyChildProperties beh z.1 id newValue oldValue
                (w.1, z.2.1 ++ w.2.1, w.2.2)
              else (z.1, z.2.1, .ok ())

/-- The setter installed by `__definePrimitive`: no-op on strict-equal
assignment; store the new value; suppress dispatch during an array-method
call on an array context; if the captured value was defined, just `_execute`;
otherwise promote to the object installer (when the new value is an
object/array, reading the cascade-hash length first) or re-install the
primitive accessor. -/
def setPrimitiveProp (beh : Beh) (s : CMState) (id : Ident) (itc : Interceptor)
    (newValue : JsVal) : CMState × List TraceEv × Except Unit Unit :=
  if itc.value = newValue then (s, [], .ok ())
  else
    let oldValue := itc.value
    let s := { s with interceptors := aset s.interceptors id { itc with value := newValue } }
    if s.isArrayFunction && itc.ctxIsArray then (s, [], .ok ())
    else if itc.isDefined then execute beh s id newValue oldValue
    else if isObjectOrArray newValue then
      match alook s.identifierHash id with
      | none => (s, [], .error ())
      | some children =>
          let z := execute beh s id newValue oldValue
          match z.2.2 with
          | .error e => (z.1, z.2.1, .error e)
          | .ok _ =>
              let itc2 : Interceptor := ⟨true, newValue, !isNull newValue, itc.ctxIsArray⟩
              let s := { z.1 with observedIdentifier := some id,
                                  interceptors := aset z.1.interceptors id itc2 }
              if children.length > 0 then
                let w := notifyChildProperties beh s id newValue oldValue
                (w.1, z.2.1 ++ w.2.1, w.2.2)
              else (s, z.2.1, .ok ())
    else
      let z := execute beh s id newValue oldValue
      match z.2.2 with
      | .error e => (z.1, z.2.1, .error e)
      | .ok _ =>
          let s := { z.1 with observedIdentifier := some id }
          let itc2 : Interceptor := ⟨false, newValue, !isNull newValue, itc.ctxIsArray⟩
          let s :=
            if itc.ctxIsArray && id.getLastD "" = "length" then s
            else { s with interceptors := aset s.interceptors id itc2 }
          (s, z.2.1, .ok ())

end ContextManager

mutual
/-- Plain (un-intercepted) nested object write `root.p1...pn = v`. -/
def setPathVal : JsVal → List String → JsVal → JsVal
  | .jsobj fs, k :: rest, v => .jsobj (setPathFields fs k rest v)
  | base, _, _ => base

/-- Field-level worker for `setPathVal`. -/
def setPathFields : JsFields → String → List String → JsVal → JsFields
  | .nil, k, [], v => .cons k v .nil
  | .nil, _, _ :: _, _ => .nil
  | .cons k0 v0 fs, k, rest, v =>
      if k0 = k then
        match rest with
        | [] => .cons k0 v fs
        | _ :: _ => .cons k0 (setPathVal v0 rest v) fs
      else .cons k0 v0 (setPathFields fs k rest v)
end

namespace ContextManager

/-- An assignment to the property at the identifier: through the installed
setter when interception is present, else a plain slot write (which dispatches
nothing). -/
def mutateAt (beh : Beh) (s : CMState) (id : Ident) (newValue : JsVal) :
    CMState × List TraceEv × Except Unit Unit :=
  match alook s.interceptors id with
  | some itc =>
      if itc.isObjectKind then setObjectProp beh s id itc newValue
      else setPrimitiveProp beh s id itc newValue
  | none => ({ s with context := setPathVal s.context id newValue }, [], .ok ())

end ContextManager

/-- Array-mutation callback bodies, by callback function id. -/
abbrev ABeh := Nat → ArrayMethodInfo → Except Unit Unit

/-- Substring search worker for `strContains`. -/
def listInfix : List Char → List Char → Bool
  | pat, [] => pat.isEmpty
  | pat, c :: rest => pat.isPrefixOf (c :: rest) || listInfix pat rest

/-- `method.indexOf(pat) !== -1`. -/
def strContains (s pat : String) : Bool := listInfix pat.data s.data

namespace ContextManager

/-- The fan-out loop of the array wrapper over `Object.keys(callbacks)`:
invoke each owner's callback with the structured event; a throwing callback's
exception propagates. -/
def arrCbLoop (abeh : ABeh) (info : ArrayMethodInfo) :
    List (String × Nat) → List TraceEv × Except Unit Unit
  | [] => ([], .ok ())
  | (uid, tok) :: rest =>
      match abeh tok info with
      | .ok _ =>
          let (tr, r) := arrCbLoop abeh info rest
          (.arrcb uid info :: tr, r)
      | .error e => ([.arrcb uid info], .error e)

/-- The tail of `observedArrayFn` after the raw method returned: notify the
`.length` listeners directly when the length changed, then fan the structured
event out to every registered owner callback. -/
def observedArrayTail (beh : Beh) (abeh : ABeh) (s : CMState) (absId : Ident)
    (method : String) (callbacks : List (String × Nat))
    (oldArray newArr args : List JsVal) (ret : JsVal) :
    CMState × List TraceEv × Except Unit (List JsVal × JsVal) :=
  let info : ArrayMethodInfo := ⟨method, ret, oldArray, newArr, args⟩
  if oldArray.length ≠ newArr.length then
    let z := execute beh s (absId ++ ["length"]) (.jsnum newArr.length) (.jsnum oldArray.length)
    match z.2.2 with
    | .error e => (z.1, z.2.1, .error e)
    | .ok _ =>
        let w := arrCbLoop abeh info callbacks
        match w.2 with
        | .error e => (z.1, z.2.1 ++ w.1, .error e)
        | .ok _ => (z.1, z.2.1 ++ w.1, .ok (newArr, ret))
  else
    let w := arrCbLoop abeh info callbacks
    match w.2 with
    | .error e => (s, w.1, .error e)
    | .ok _ => (s, w.1, .ok (newArr, ret))

/-- `_overwriteArrayFunction(absoluteIdentifier, method)`'s wrapper
`observedArrayFn`, applied to one call: snapshot the array; for the
shift-class methods, set the manager's `__isArrayFunction` guard, run the raw
method, clear the guard, and cascade child notifications; for the others just
run the raw method; then the common length/fan-out tail.  The guard clearing
is a plain assignment after the raw call: a throwing raw method skips it. -/
def observedArrayFn (beh : Beh) (abeh : ABeh) (s : CMState) (absId : Ident)
    (method : String) (callbacks : List (String × Nat))
    (arr args : List JsVal)
    (raw : List JsVal → List JsVal → Except Unit (List JsVal × JsVal)) :
    CMState × List TraceEv × Except Unit (List JsVal × JsVal) :=
  let oldArray := arr
  if strContains method "shift" then
    let s := { s with isArrayFunction := true }
    match raw arr args with
    | .error e => (s, [], .error e)
    | .ok (newArr, ret) =>
        let s := { s with isArrayFunction := false }
        let w := notifyChildProperties beh s absId (JsVal.arr newArr) (JsVal.arr oldArray)
        match w.2.2 with
        | .error e => (w.1, w.2.1, .error e)
        | .ok _ =>
            let t := observedArrayTail beh abeh w.1 absId method callbacks oldArray newArr args ret
            (t.1, w.2.1 ++ t.2.1, t.2.2)
  else
    match raw arr args with
    | .error e => (s, [], .error e)
    | .ok (newArr, ret) =>
        observedArrayTail beh abeh s absId method callbacks oldArray newArr args ret

end ContextManager

/-- Result of a modelled `observe` call: final static and instance state, the
fresh-listener counter, emitted diagnostics, and (unless an exception
propagated) the returned remove function — `none` for the source's `return;`
(`undefined`), `some steps` for a real closure (`[]` being `noop`). -/
structure ObsOut where
  g : SState
  s : CMState
  c : Nat
  tr : List TraceEv
  res : Except Unit (Option (List (Ident × String)))
deriving Repr

/-- `observeArray(uid, listener, absoluteIdentifier, array, oldArray)` on the
registry side: restore the old array's plain methods, bail on a null array,
record the callback under (identifier, uid) in the global table (replacing any
previous one), and instrument the new array instance.  Instrumentation is
keyed by the identifier at which it is installed (tree-shaped contexts); the
`Compat.setProto`/`proto`/per-property strategies of the source produce the
same external behaviour and collapse to one here. -/
def observeArrayM (g : SState) (uid : String) (tok : Nat) (absId : Ident)
    (array oldArray : JsVal) : SState :=
  let g := if isNull oldArray then g else { g with instrumented := g.instrumented.erase absId }
  if isNull array then g
  else
    let cbs := (alook g.arrayListeners absId).getD []
    let g := { g with arrayListeners := aset g.arrayListeners absId (aset cbs uid tok) }
    { g with instrumented :=
        if absId ∈ g.instrumented then g.instrumented else g.instrumented ++ [absId] }

/-- The callback-function id reserved for the source's `noop`. -/
def noopTok : Nat := 0

namespace ContextManager

/-- The `do/while` walk of `_getImmediateContext`: read each segment through
any installed accessor (recording `__observedIdentifier`), stopping at a
null/undefined value or the path's end. -/
def walkF : List String → CMState → JsVal → Ident → CMState × Except Unit JsVal
  | [], s, ctx, done =>
      let z := readPropE s done ctx (done.getLastD "")
      match z.2 with
      | .error e => (z.1, .error e)
      | .ok v => (z.1, .ok v)
  | r :: rs, s, ctx, done =>
      let z := readPropE s done ctx (done.getLastD "")
      match z.2 with
      | .error e => (z.1, .error e)
      | .ok v => if isNull v then (z.1, .ok v) else walkF rs z.1 v (done ++ [r])

/-- The immediate-context resolution block of `observe` (source lines
286-292): use the memoized `__contextObjects[join]` when it is non-null, else
the result of the inlined `_getImmediateContext(join)` — whose recursive
`observe(join, null)` result is supplied as `pre` (in this pure embedding the
recursive call is evaluated unconditionally but its result is used exactly
where the source calls it).  `_getImmediateContext` then walks the context
from the root, reading each segment through any installed accessor. -/
def obsResolve (g : SState) (s : CMState) (c : Nat) (split : Ident) (pre : ObsOut) :
    SState × CMState × Nat × List TraceEv × Except Unit JsVal :=
  if split.isEmpty then (g, s, c, [], .ok s.context)
  else
    -- context = this.__contextObjects[join];
    -- if (isNull(this.__contextObjects[join])) recompute via _getImmediateContext
    let cached := alook s.contextObjects split
    if !(isNull (cached.getD .undef)) then (g, s, c, [], .ok (cached.getD .undef))
    else
      match pre.res with
      | .error e => (pre.g, pre.s, pre.c, pre.tr, .error e)
      | .ok _ =>
          match split with
          | [] => (pre.g, pre.s, pre.c, pre.tr, .ok pre.s.context)
          | k0 :: ks =>
              let w := walkF ks pre.s pre.s.context [k0]
              match w.2 with
              | .error e => (pre.g, w.1, pre.c, pre.tr, .error e)
              | .ok v =>
                  let s2 := { w.1 with contextObjects := aset w.1.contextObjects split v }
                  (pre.g, s2, pre.c, pre.tr, .ok v)

/-- The registration block of `observe` (source lines 319-331): register the
listener under the absolute identifier, and also under the observed
identifier when the get-interceptor side channel reported a different one;
the returned remove closure performs the collected steps in order. -/
def obsRegister (g : SState) (s : CMState) (self : Nat) (absId : Ident)
    (observedId : Option Ident) (l : IListener) :
    SState × CMState × List (Ident × String) :=
  let a := addObservableListener g s self absId l
  let g := a.1
  let s := a.2.1
  let stepAbs := a.2.2
  match observedId with
  | some o =>
      if absId ≠ o then
        let b := addObservableListener g s self o l
        (b.1, b.2.1, [stepAbs, b.2.2])
      else (g, s, [stepAbs])
  | none => (g, s, [stepAbs])

/-- `observe(absoluteIdentifier, observableListener)` (fuelled; the recursion
of `_getImmediateContext` — inlined at its single call site — and of the
array-`length` branch is on strictly shorter identifiers).  `c` is the supply
of fresh function ids for internally created listener closures; `self` is the
heap id of this manager instance, recorded as its bound `_removeCallback` in
the static owner index. -/
def observeF : Nat → SState → CMState → Nat → Nat → Ident → Option IListener → ObsOut
  | 0, g, s, c, _, _, _ => ⟨g, s, c, [], .error ()⟩
  | Nat.succ n, g, s, c, self, absId, ol =>
    if absId.isEmpty then ⟨g, s, c, [], .ok none⟩
    else
      let split := absId.dropLast
      let key := absId.getLastD ""
      let hasId0 := hasIdentifier s absId
      -- _getImmediateContext(join)'s leading `observe(join, null)` (source
      -- line 439-441), performed only when the identifier is unobserved
      let pre :=
        if (alook s.identifiers split).isNone then observeF n g s c self split none
        else ⟨g, s, c, [], .ok none⟩
      match obsResolve g s c split pre with
      | (g, s, c, tr, .error e) => ⟨g, s, c, tr, .error e⟩
      | (g, s, c, tr, .ok context) =>
        if !(isObjectOrArray context) then
          let tr := tr ++ [.warn absId]
          match ol with
          | some l =>
              let a := addObservableListener g s self absId l
              ⟨a.1, a.2.1, c, tr, .ok (some [a.2.2])⟩
          | none => ⟨g, s, c, tr, .ok none⟩
        else
          let s := { s with observedIdentifier := none }
          let z := readProp s absId context key
          let value := z.2
          let s := { z.1 with contextObjects := aset z.1.contextObjects absId value }
          let observedId := s.observedIdentifier
          let isObserved := observedId.isSome
          let hasId := hasId0 || isObserved
          match ol with
          | some l =>
              let reg := obsRegister g s self absId observedId l
              let g := reg.1
              let s := reg.2.1
              let steps := reg.2.2
              if !hasId then
                if isArrayVal context ∧ key = "length" then
                  let internal : IListener := ⟨l.uid, c⟩
                  let o2 := observeF n g s (c + 1) self split (some internal)
                  match o2.res with
                  | .error e => ⟨o2.g, o2.s, o2.c, tr ++ o2.tr, .error e⟩
                  | .ok _ =>
                      let g3 := observeArrayM o2.g l.uid noopTok split context .jsnull
                      ⟨g3, o2.s, o2.c, tr ++ o2.tr, .ok (some steps)⟩
                else
                  let s := defineM s absId context key
                  ⟨g, s, c, tr, .ok (some steps)⟩
              else ⟨g, s, c, tr, .ok (some steps)⟩
          | none =>
              if !hasId then
                if isArrayVal context ∧ key = "length" then
                  -- `observableListener.uid` with a null listener: TypeError
                  ⟨g, s, c, tr, .error ()⟩
                else
                  let s := defineM s absId context key
                  ⟨g, s, c, tr, .ok (some [])⟩
              else ⟨g, s, c, tr, .ok (some [])⟩

/-- `observe` run with enough fuel for all its recursive prefix observations
(each recursive call drops the last segment, so `|I| + 1` levels suffice). -/
def observe (g : SState) (s : CMState) (c : Nat) (self : Nat) (absId : Ident)
    (ol : Option IListener) : ObsOut :=
  observeF (absId.length + 1) g s c self absId ol

end ContextManager

/-- A JavaScript property descriptor (data properties only). -/
structure PropDesc where
  value : JsVal
  writable : Bool
  enumerable : Bool
  configurable : Bool
deriving DecidableEq, Repr

/-- An owner/control: its uid and its own properties (only `context` matters
to the manager). -/
structure Owner where
  uid : String
  props : List (String × PropDesc)
deriving DecidableEq, Repr

/-- `control.context`. -/
def Owner.contextVal (o : Owner) : JsVal :=
  match alook o.props "context" with
  | some d => d.value
  | none => JsVal.undef

/-- Static `ContextManager.defineProperty(obj, key, value, enumerable,
configurable)` via `Object.defineProperty` with a `{value, enumerable,
configurable}` descriptor: on an existing (configurable) property the
unspecified `writable` attribute is left unchanged; on a new property it
defaults to `false`. -/
def definePropertyM (o : Owner) (key : String) (v : JsVal) (enum config : Bool) : Owner :=
  match alook o.props key with
  | some d => { o with props := aset o.props key ⟨v, d.writable, enum, config⟩ }
  | none => { o with props := aset o.props key ⟨v, false, enum, config⟩ }

/-- Modelled from the spec: `deepExtend({}, context)` — "a deep copy of the
current context value" (§4.5); its defining file is not under `src/`.  In a
structural-value embedding a deep copy is represented by the value itself. -/
def deepExtendEmpty (v : JsVal) : JsVal := v

/-- Static `ContextManager.removeArrayListeners(absoluteIdentifier, uid)`. -/
def removeArrayListenersS (al : List (Ident × List (String × Nat)))
    (absId : Ident) (uid : String) : List (Ident × List (String × Nat)) :=
  match alook al absId with
  | none => al
  | some ls => aset al absId (adel ls uid)

/-- Instance `dispose()`: null the context and empty the three instance
registries (accessors already installed on data objects are untouched). -/
def disposeInstance (s : CMState) : CMState :=
  { s with context := .jsnull, identifiers := [], identifierHash := [], contextObjects := [] }

/-- Process-wide state: `__managers` (uid → manager heap id), the manager
heap, and the static registries. -/
structure GState where
  managers : List (String × Nat)
  instances : List (Nat × CMState)
  sst : SState
deriving DecidableEq, Repr

/-- Apply a function to a heap instance, if present. -/
def updInstance (insts : List (Nat × CMState)) (tok : Nat) (f : CMState → CMState) :
    List (Nat × CMState) :=
  match alook insts tok with
  | none => insts
  | some s => aset insts tok (f s)

/-- Static `ContextManager.dispose(control, persist)`: return on a null
control; dispose and drop the control's own manager; return early when the
owner→identifier index has no entry for the uid; otherwise invoke every
stored remove listener, purge the uid from the global array table across all
identifiers, drop the index entry, and — if the control's context is
non-null — redefine `context` via `defineProperty(control, 'context', persist
? deepExtend({}, control.context) : null, true, true)`. -/
def disposeStatic (g : GState) (owner : Option Owner) (persist : Bool) :
    GState × Option Owner :=
  match owner with
  | none => (g, none)
  | some control =>
      let uid := control.uid
      let identsOpt := alook g.sst.controls uid
      let g :=
        match alook g.managers uid with
        | none => g
        | some mid =>
            { g with instances := updInstance g.instances mid disposeInstance,
                     managers := adel g.managers uid }
      match identsOpt with
      | none => (g, some control)
      | some idents =>
          let g := idents.foldl
            (fun g3 entry =>
              entry.2.foldl
                (fun g4 tok =>
                  let insts := updInstance g4.instances tok
                    (fun inst => ContextManager.removeCallback inst entry.1 uid)
                  { g4 with instances := insts })
                g3)
            g
          let al2 := (akeys g.sst.arrayListeners).foldl
            (fun al key => removeArrayListenersS al key uid) g.sst.arrayListeners
          let g := { g with sst := { g.sst with arrayListeners := al2 } }
          let g := { g with sst := { g.sst with controls := adel g.sst.controls uid } }
          let control2 :=
            if !(isNull control.contextVal) then
              definePropertyM control "context"
                (if persist then deepExtendEmpty control.contextVal else .jsnull) true true
            else control
          (g, some control2)

/-- The walk loop of the static `ContextManager.getContext`. -/
def sgLoop : JsVal → List String → Except Unit JsVal
  | ctx, [] => .ok ctx
  | ctx, k :: rest =>
      match getPropE ctx k with
      | .error e => .error e
      | .ok v => if isNull v then .ok .jsnull else sgLoop v rest

/-- Static `ContextManager.getContext(rootContext, split)`: copy the segment
list (the embedding is pure, so the caller's list and root are untouched by
construction), return `null` for a null/undefined root, then shift segments,
returning `null` as soon as an intermediate is null/undefined. -/
def getContextStatic (root : JsVal) (split : List String) : Except Unit JsVal :=
  if isNull root then .ok .jsnull
  else sgLoop root split

/-- The PathResolver contract in the spec's words (§4.1): walk
`root[p0][p1]...`, returning the missing sentinel as soon as the root or any
intermediate is null/undefined.  Stated separately from the source-derived
`getContextStatic` so the two can be compared. -/
def specResolve : JsVal → List String → JsVal
  | root, [] => if isNull root then .jsnull else root
  | root, k :: rest => if isNull root then .jsnull else specResolve (getProp root k) rest

def obsSteps (o : ObsOut) : List (Ident × String) :=
  match o.res with
  | .ok (some steps) => steps
  | _ => []

def ctxC2 : JsVal := JsVal.obj [("a", .jsnum 1)]
def obs1C2 : ObsOut := ContextManager.observe SState.empty (CMState.fresh ctxC2) 10 0 ["a"] (some ⟨"u", 1⟩)
def obs2C2 : ObsOut := ContextManager.observe obs1C2.g obs1C2.s obs1C2.c 0 ["a"] (some ⟨"u", 2⟩)
def remC2 : SState × CMState := ContextManager.applyRemover obs2C2.g obs2C2.s (obsSteps obs1C2)

def ctxC5 : JsVal := JsVal.obj [("items", JsVal.arr [.jsnum 1, .jsnum 2, .jsnum 3])]
def obsC5 : ObsOut := ContextManager.observe SState.empty (CMState.fresh ctxC5) 10 0 ["items", "length"] (some ⟨"u", 5⟩)
def behOk : Beh := fun _ _ _ => .ok ()
def abehOk : ABeh := fun _ _ => .ok ()
def rawUnshift : List JsVal → List JsVal → Except Unit (List JsVal × JsVal) :=
  fun a args => .ok (args ++ a, .jsnum (args ++ a).length)
def runC5 : CMState × List TraceEv × Except Unit (List JsVal × JsVal) :=
  ContextManager.observedArrayFn behOk abehOk obsC5.s ["items"] "unshift"
    ((alook obsC5.g.arrayListeners ["items"]).getD []) [.jsnum 1, .jsnum 2, .jsnum 3] [.jsnum 0] rawUnshift

/-- Whether the trace contains a `_execute` invocation of a listener with the
given function id. -/
def execLidMem (tr : List TraceEv) (n : Nat) : Bool :=
  tr.any (fun ev => match ev with | .exec l _ _ => decide (l.lid = n) | _ => false)

/-- Number of `_execute` invocations of the given registration in a trace. -/
def execCountFor (tr : List TraceEv) (l : IListener) : Nat :=
  tr.countP (fun ev => match ev with | .exec l2 _ _ => decide (l2 = l) | _ => false)

/-- Number of array-mutation callback invocations for the given uid. -/
def arrcbCountFor (tr : List TraceEv) (uid : String) : Nat :=
  tr.countP (fun ev => match ev with | .arrcb u _ => decide (u = uid) | _ => false)

/-- Listener behaviour for the error-isolation scenario: function 0 throws,
every other listener returns normally. -/
def behC1 : Beh := fun lid _ _ => if lid = 0 then .error () else .ok ()

/-- A manager holding two registrations (functions 0 and 1, one owner) on the
identifier `a` of the context `{a: 1}`. -/
def sC1 : CMState :=
  { CMState.fresh (JsVal.obj [("a", .jsnum 1)]) with
      identifiers := [(["a"], [⟨"u", 0⟩, ⟨"u", 1⟩])],
      identifierHash := [(["a"], [])] }

/-- An `Array.prototype` method stand-in that throws. -/
def rawThrow : List JsVal → List JsVal → Except Unit (List JsVal × JsVal) :=
  fun _ _ => .error ()

/-- C4 scenario: apply the remove function returned by the first observe call
of the C2 scenario. -/
def remC4 : SState × CMState :=
  ContextManager.applyRemover obs1C2.g obs1C2.s (obsSteps obs1C2)

/-- An owner whose `context` is a non-null object held in a plain (writable,
enumerable, configurable) data property. -/
def ownerA : Owner := ⟨"ua", [("context", ⟨JsVal.obj [("x", .jsnum 1)], true, true, true⟩)]⟩

/-- A registry with no entry at all for `ownerA`. -/
def gA : GState := ⟨[], [], SState.empty⟩

/-- An owner like `ownerA` under a uid that has an (empty) entry in the
owner→identifier index, so disposal reaches the context redefinition. -/
def ownerB : Owner := ⟨"ub", [("context", ⟨JsVal.obj [("x", .jsnum 1)], true, true, true⟩)]⟩

/-- A registry whose owner→identifier index has an entry for `ownerB`. -/
def gB : GState := ⟨[], [], ⟨[("ub", [])], [], []⟩⟩

/-- An accessor-closure state whose captured value is `1` (for the no-op
assignment scenario). -/
def itcC9 : Interceptor := ⟨true, .jsnum 1, true, false⟩

/-- A manager with an installed accessor at `a` capturing the value `1`. -/
def sC9 : CMState :=
  { CMState.fresh (JsVal.obj [("a", .jsnum 1)]) with interceptors := [(["a"], itcC9)] }

/-- A manager with one listener registered on `items.length`. -/
def sC5w : CMState :=
  { CMState.fresh (JsVal.obj [("items", JsVal.arr [.jsnum 1])]) with
      identifiers := [(["items", "length"], [⟨"u", 5⟩])] }

/-- `Array.prototype.push` on the snapshot representation. -/
def rawPush : List JsVal → List JsVal → Except Unit (List JsVal × JsVal) :=
  fun a args => .ok (a ++ args, .jsnum (a ++ args).length)

section Lemmas

variable {κ α : Type} [DecidableEq κ]

theorem alook_aset_self (m : List (κ × α)) (k : κ) (v : α) :
    alook (aset m k v) k = some v := by
  induction m with
  | nil => simp [aset, alook]
  | cons kv rest ih =>
      obtain ⟨k0, v0⟩ := kv
      by_cases h : k0 = k <;> simp [aset, alook, h, ih]

theorem alook_aset_ne (m : List (κ × α)) (k k2 : κ) (v : α) (h : k ≠ k2) :
    alook (aset m k v) k2 = alook m k2 := by
  induction m with
  | nil => simp [aset, alook, h]
  | cons kv rest ih =>
      obtain ⟨k0, v0⟩ := kv
      by_cases h0 : k0 = k
      · subst h0; simp [aset, alook, h]
      · simp [aset, alook, h0, ih]

theorem alook_adel_self (m : List (κ × α)) (k : κ) :
    alook (adel m k) k = none := by
  induction m with
  | nil => simp [adel, alook]
  | cons kv rest ih =>
      obtain ⟨k0, v0⟩ := kv
      by_cases h : k0 = k <;> simp [adel, alook, h, ih]

theorem alook_adel_ne (m : List (κ × α)) (k k2 : κ) (h : k ≠ k2) :
    alook (adel m k) k2 = alook m k2 := by
  induction m with
  | nil => simp [adel, alook]
  | cons kv rest ih =>
      obtain ⟨k0, v0⟩ := kv
      by_cases h0 : k0 = k
      · subst h0; simp [adel, alook, h, ih]
      · simp [adel, alook, h0, ih]

theorem spliceUid_eq_filter (cbs : List IListener) (uid : String) :
    ContextManager.spliceUid cbs uid = cbs.filter (fun c => c.uid ≠ uid) := by
  induction cbs with
  | nil => rfl
  | cons c rest ih =>
      by_cases h : c.uid = uid <;>
        simp [ContextManager.spliceUid, List.filter, h, ih]

end Lemmas

namespace ContextManager

theorem identifiers_readProp (s : CMState) (id : Ident) (ctx : JsVal) (key : String) :
    (readProp s id ctx key).1.identifiers = s.identifiers := by
  unfold readProp; cases alook s.interceptors id <;> rfl

theorem guard_readProp (s : CMState) (id : Ident) (ctx : JsVal) (key : String) :
    (readProp s id ctx key).1.isArrayFunction = s.isArrayFunction := by
  unfold readProp; cases alook s.interceptors id <;> rfl

theorem identifiers_defineObjectInstall (s : CMState) (id : Ident) (ctx : JsVal)
    (key : String) : (defineObjectInstall s id ctx key).identifiers = s.identifiers := by
  unfold defineObjectInstall
  rcases hrp : readProp s id ctx key with ⟨s2, v⟩
  have h2 : s2.identifiers = s.identifiers := by
    simpa [hrp] using identifiers_readProp s id ctx key
  simp [hrp, h2]

theorem guard_defineObjectInstall (s : CMState) (id : Ident) (ctx : JsVal)
    (key : String) : (defineObjectInstall s id ctx key).isArrayFunction = s.isArrayFunction := by
  unfold defineObjectInstall
  rcases hrp : readProp s id ctx key with ⟨s2, v⟩
  have h2 : s2.isArrayFunction = s.isArrayFunction := by
    simpa [hrp] using guard_readProp s id ctx key
  simp [hrp, h2]

theorem identifiers_definePrimitiveInstall (s : CMState) (id : Ident) (ctx : JsVal)
    (key : String) : (definePrimitiveInstall s id ctx key).identifiers = s.identifiers := by
  unfold definePrimitiveInstall
  rcases hrp : readProp s id ctx key with ⟨s2, v⟩
  have h2 : s2.identifiers = s.identifiers := by
    simpa [hrp] using identifiers_readProp s id ctx key
  simp only [hrp]
  split <;> simp [h2]

theorem guard_definePrimitiveInstall (s : CMState) (id : Ident) (ctx : JsVal)
    (key : String) : (definePrimitiveInstall s id ctx key).isArrayFunction = s.isArrayFunction := by
  unfold definePrimitiveInstall
  rcases hrp : readProp s id ctx key with ⟨s2, v⟩
  have h2 : s2.isArrayFunction = s.isArrayFunction := by
    simpa [hrp] using guard_readProp s id ctx key
  simp only [hrp]
  split <;> simp [h2]

theorem readProp_fst_identifiers (s : CMState) (id : Ident) (ctx : JsVal) (key : String)
    (s2 : CMState) (v : JsVal) (h : readProp s id ctx key = (s2, v)) :
    s2.identifiers = s.identifiers ∧ s2.isArrayFunction = s.isArrayFunction ∧
    s2.interceptors = s.interceptors := by
  unfold readProp at h
  rcases halook : alook s.interceptors id with _ | itc <;> rw [halook] at h <;>
    cases h <;> exact ⟨rfl, rfl, rfl⟩

theorem identifiers_defineM (s : CMState) (id : Ident) (ctx : JsVal) (key : String) :
    (defineM s id ctx key).identifiers = s.identifiers := by
  unfold defineM
  rcases hrp : readProp s id ctx key with ⟨s2, v⟩
  have h2 := (readProp_fst_identifiers s id ctx key s2 v hrp).1
  simp only [hrp]
  split
  · rw [identifiers_defineObjectInstall, h2]
  · rw [identifiers_definePrimitiveInstall, h2]

theorem guard_defineM (s : CMState) (id : Ident) (ctx : JsVal) (key : String) :
    (defineM s id ctx key).isArrayFunction = s.isArrayFunction := by
  unfold defineM
  rcases hrp : readProp s id ctx key with ⟨s2, v⟩
  have h2 := (readProp_fst_identifiers s id ctx key s2 v hrp).2.1
  simp only [hrp]
  split
  · rw [guard_defineObjectInstall, h2]
  · rw [guard_definePrimitiveInstall, h2]

theorem identifiers_execute (beh : Beh) (s : CMState) (id : Ident) (v old : JsVal) :
    (execute beh s id v old).1.identifiers = s.identifiers := by
  unfold execute; dsimp only
  split <;> (try split) <;> simp_all

theorem guard_execute (beh : Beh) (s : CMState) (id : Ident) (v old : JsVal) :
    (execute beh s id v old).1.isArrayFunction = s.isArrayFunction := by
  unfold execute; dsimp only
  split <;> (try split) <;> simp_all

end ContextManager

/-- The dispatch machinery never touches `__identifiers` or the
`__isArrayFunction` guard: invariant relating its output state to its input
state. -/
def stateStable (a b : CMState) : Prop :=
  a.identifiers = b.identifiers ∧ a.isArrayFunction = b.isArrayFunction

theorem stateStable.refl (s : CMState) : stateStable s s := ⟨rfl, rfl⟩

theorem stateStable.trans {a b c : CMState} (h1 : stateStable a b) (h2 : stateStable b c) :
    stateStable a c := ⟨h1.1.trans h2.1, h1.2.trans h2.2⟩

namespace ContextManager

theorem stable_execute (beh : Beh) (s : CMState) (id : Ident) (v old : JsVal) :
    stateStable (execute beh s id v old).1 s :=
  ⟨identifiers_execute beh s id v old, guard_execute beh s id v old⟩

theorem stable_defineM (s : CMState) (id : Ident) (ctx : JsVal) (key : String) :
    stateStable (defineM s id ctx key) s :=
  ⟨identifiers_defineM s id ctx key, guard_defineM s id ctx key⟩

theorem stable_notifyFinish (beh : Beh) (s : CMState) (binding : Ident)
    (property : List String) (key : String) (nP nC oC : JsVal)
    (values : List (List String × Option ValuePair)) :
    stateStable (notifyFinish beh s binding property key nP nC oC values).1 s := by
  simp only [notifyFinish]
  split
  · exact (stable_execute _ _ _ _ _).trans (stable_defineM _ _ _ _)
  · exact stable_execute _ _ _ _ _

theorem stable_notifyStep (beh : Beh) (id : Ident) (nV oV : JsVal) (s : CMState)
    (values : List (List String × Option ValuePair)) (binding : Ident) :
    stateStable (notifyStep beh id nV oV s values binding).1 s := by
  simp only [notifyStep]
  split
  · exact stable_notifyFinish _ _ _ _ _ _ _ _ _
  · split
    · exact stateStable.refl s
    · exact stable_execute _ _ _ _ _
    · exact stable_notifyFinish _ _ _ _ _ _ _ _ _

theorem stable_notifyLoop (beh : Beh) (id : Ident) (nV oV : JsVal) :
    ∀ (bs : List Ident) (s : CMState) (values : List (List String × Option ValuePair)),
      stateStable (notifyLoop beh id nV oV s values bs).1 s := by
  intro bs
  induction bs with
  | nil => intro s values; exact stateStable.refl s
  | cons binding rest ih =>
      intro s values
      simp only [notifyLoop]
      have hst := stable_notifyStep beh id nV oV s values binding
      split
      · exact hst
      · exact (ih _ _).trans hst

theorem stable_notifyChild (beh : Beh) (s : CMState) (id : Ident) (nV oV : JsVal) :
    stateStable (notifyChildProperties beh s id nV oV).1 s := by
  unfold notifyChildProperties
  split
  · exact stateStable.refl s
  next mappings heq =>
    split
    · exact ⟨rfl, rfl⟩
    · exact stable_notifyLoop beh id nV oV mappings s []

end ContextManager

namespace ContextManager

theorem stable_setObjectProp (beh : Beh) (s : CMState) (id : Ident) (itc : Interceptor)
    (newValue : JsVal) : stateStable (setObjectProp beh s id itc newValue).1 s := by
  simp only [setObjectProp]
  split
  · exact stateStable.refl s
  · split
    · exact ⟨rfl, rfl⟩
    · split
      · exact ⟨rfl, rfl⟩
      · split
        · exact (stable_execute _ _ _ _ _).trans ⟨rfl, rfl⟩
        · split
          · exact ((stable_notifyChild _ _ _ _ _).trans (stable_execute _ _ _ _ _)).trans
              ⟨rfl, rfl⟩
          · exact (stable_execute _ _ _ _ _).trans ⟨rfl, rfl⟩

theorem stable_setPrimitiveProp (beh : Beh) (s : CMState) (id : Ident) (itc : Interceptor)
    (newValue : JsVal) : stateStable (setPrimitiveProp beh s id itc newValue).1 s := by
  simp only [setPrimitiveProp]
  split
  · exact stateStable.refl s
  · split
    · exact ⟨rfl, rfl⟩
    · split
      · exact (stable_execute _ _ _ _ _).trans ⟨rfl, rfl⟩
      · split
        · split
          · exact ⟨rfl, rfl⟩
          · split
            · exact (stable_execute _ _ _ _ _).trans ⟨rfl, rfl⟩
            · split
              · exact ((stable_notifyChild _ _ _ _ _).trans
                  ((stateStable.refl _).trans ((stable_execute _ _ _ _ _).trans ⟨rfl, rfl⟩)))
              · exact (stable_execute _ _ _ _ _).trans ⟨rfl, rfl⟩
        · split
          · exact (stable_execute _ _ _ _ _).trans ⟨rfl, rfl⟩
          · split
            · exact (stable_execute _ _ _ _ _).trans ⟨rfl, rfl⟩
            · exact (stable_execute _ _ _ _ _).trans ⟨rfl, rfl⟩

theorem stable_mutateAt (beh : Beh) (s : CMState) (id : Ident) (newValue : JsVal) :
    stateStable (mutateAt beh s id newValue).1 s := by
  simp only [mutateAt]
  split
  · split
    · exact stable_setObjectProp _ _ _ _ _
    · exact stable_setPrimitiveProp _ _ _ _ _
  · exact ⟨rfl, rfl⟩

end ContextManager

namespace ContextManager

theorem execList_exec_mem (beh : Beh) (v old : JsVal) :
    ∀ (ls : List IListener) (l : IListener) (vv oo : JsVal),
      TraceEv.exec l vv oo ∈ (execList beh v old ls).1 → l ∈ ls := by
  intro ls
  induction ls with
  | nil => intro l vv oo h; simp [execList] at h
  | cons p rest ih =>
      intro l vv oo h
      simp only [execList] at h
      cases hb : beh p.lid v old with
      | ok u =>
          rw [hb] at h
          simp only [List.mem_cons] at h
          rcases h with h | h
          · cases h; exact List.mem_cons_self _ _
          · exact List.mem_cons_of_mem _ (ih l vv oo h)
      | error e =>
          rw [hb] at h
          simp only [List.mem_singleton] at h
          cases h; exact List.mem_cons_self _ _

theorem execute_exec_mem (beh : Beh) (s : CMState) (id : Ident) (v old : JsVal)
    (l : IListener) (vv oo : JsVal)
    (h : TraceEv.exec l vv oo ∈ (execute beh s id v old).2.1) :
    ∃ ls, alook s.identifiers id = some ls ∧ l ∈ ls := by
  simp only [execute] at h
  cases halook : alook s.identifiers id with
  | none => rw [halook] at h; simp at h
  | some ls =>
      rw [halook] at h
      exact ⟨ls, rfl, execList_exec_mem beh v old ls l vv oo h⟩

theorem notifyFinish_exec_mem (beh : Beh) (s : CMState) (binding : Ident)
    (property : List String) (key : String) (nP nC oC : JsVal)
    (values : List (List String × Option ValuePair)) (l : IListener) (vv oo : JsVal)
    (h : TraceEv.exec l vv oo ∈
        (notifyFinish beh s binding property key nP nC oC values).2.2.1) :
    ∃ key2 ls, alook s.identifiers key2 = some ls ∧ l ∈ ls := by
  simp only [notifyFinish] at h
  split at h
  · obtain ⟨ls, hls, hmem⟩ := execute_exec_mem _ _ _ _ _ _ _ _ h
    rw [identifiers_defineM] at hls
    exact ⟨binding, ls, hls, hmem⟩
  · obtain ⟨ls, hls, hmem⟩ := execute_exec_mem _ _ _ _ _ _ _ _ h
    exact ⟨binding, ls, hls, hmem⟩

theorem notifyStep_exec_mem (beh : Beh) (id : Ident) (nV oV : JsVal) (s : CMState)
    (values : List (List String × Option ValuePair)) (binding : Ident)
    (l : IListener) (vv oo : JsVal)
    (h : TraceEv.exec l vv oo ∈ (notifyStep beh id nV oV s values binding).2.2.1) :
    ∃ key2 ls, alook s.identifiers key2 = some ls ∧ l ∈ ls := by
  simp only [notifyStep] at h
  split at h
  · exact notifyFinish_exec_mem _ _ _ _ _ _ _ _ _ _ _ _ h
  · split at h
    · simp at h
    · obtain ⟨ls, hls, hmem⟩ := execute_exec_mem _ _ _ _ _ _ _ _ h
      exact ⟨binding, ls, hls, hmem⟩
    · exact notifyFinish_exec_mem _ _ _ _ _ _ _ _ _ _ _ _ h

theorem notifyLoop_exec_mem (beh : Beh) (id : Ident) (nV oV : JsVal) :
    ∀ (bs : List Ident) (s : CMState) (values : List (List String × Option ValuePair))
      (l : IListener) (vv oo : JsVal),
      TraceEv.exec l vv oo ∈ (notifyLoop beh id nV oV s values bs).2.1 →
      ∃ key2 ls, alook s.identifiers key2 = some ls ∧ l ∈ ls := by
  intro bs
  induction bs with
  | nil => intro s values l vv oo h; simp [notifyLoop] at h
  | cons binding rest ih =>
      intro s values l vv oo h
      simp only [notifyLoop] at h
      split at h
      · exact notifyStep_exec_mem _ _ _ _ _ _ _ _ _ _ h
      · simp only [List.mem_append] at h
        rcases h with h | h
        · exact notifyStep_exec_mem _ _ _ _ _ _ _ _ _ _ h
        · obtain ⟨key2, ls, hls, hmem⟩ := ih _ _ _ _ _ h
          rw [(stable_notifyStep beh id nV oV s values binding).1] at hls
          exact ⟨key2, ls, hls, hmem⟩

theorem notifyChild_exec_mem (beh : Beh) (s : CMState) (id : Ident) (nV oV : JsVal)
    (l : IListener) (vv oo : JsVal)
    (h : TraceEv.exec l vv oo ∈ (notifyChildProperties beh s id nV oV).2.1) :
    ∃ key2 ls, alook s.identifiers key2 = some ls ∧ l ∈ ls := by
  simp only [notifyChildProperties] at h
  split at h
  · simp at h
  · split at h
    · simp at h
    · exact notifyLoop_exec_mem _ _ _ _ _ _ _ _ _ _ h

theorem setObjectProp_exec_mem (beh : Beh) (s : CMState) (id : Ident) (itc : Interceptor)
    (newValue : JsVal) (l : IListener) (vv oo : JsVal)
    (h : TraceEv.exec l vv oo ∈ (setObjectProp beh s id itc newValue).2.1) :
    ∃ key2 ls, alook s.identifiers key2 = some ls ∧ l ∈ ls := by
  simp only [setObjectProp] at h
  split at h
  · simp at h
  · split at h
    · simp at h
    · split at h
      · simp at h
      · split at h
        · obtain ⟨ls, hls, hmem⟩ := execute_exec_mem _ _ _ _ _ _ _ _ h
          exact ⟨id, ls, hls, hmem⟩
        · split at h
          · simp only [List.mem_append] at h
            rcases h with h | h
            · obtain ⟨ls, hls, hmem⟩ := execute_exec_mem _ _ _ _ _ _ _ _ h
              exact ⟨id, ls, hls, hmem⟩
            · obtain ⟨key2, ls, hls, hmem⟩ := notifyChild_exec_mem _ _ _ _ _ _ _ _ h
              rw [(stable_execute beh _ id newValue itc.value).1] at hls
              exact ⟨key2, ls, hls, hmem⟩
          · obtain ⟨ls, hls, hmem⟩ := execute_exec_mem _ _ _ _ _ _ _ _ h
            exact ⟨id, ls, hls, hmem⟩

end ContextManager

namespace ContextManager

theorem setPrimitiveProp_exec_mem (beh : Beh) (s : CMState) (id : Ident)
    (itc : Interceptor) (newValue : JsVal) (l : IListener) (vv oo : JsVal)
    (h : TraceEv.exec l vv oo ∈ (setPrimitiveProp beh s id itc newValue).2.1) :
    ∃ key2 ls, alook s.identifiers key2 = some ls ∧ l ∈ ls := by
  simp only [setPrimitiveProp] at h
  split at h
  · simp at h
  · split at h
    · simp at h
    · split at h
      · obtain ⟨ls, hls, hmem⟩ := execute_exec_mem _ _ _ _ _ _ _ _ h
        exact ⟨id, ls, hls, hmem⟩
      · split at h
        · split at h
          · simp at h
          · split at h
            · obtain ⟨ls, hls, hmem⟩ := execute_exec_mem _ _ _ _ _ _ _ _ h
              exact ⟨id, ls, hls, hmem⟩
            · split at h
              · simp only [List.mem_append] at h
                rcases h with h | h
                · obtain ⟨ls, hls, hmem⟩ := execute_exec_mem _ _ _ _ _ _ _ _ h
                  exact ⟨id, ls, hls, hmem⟩
                · obtain ⟨key2, ls, hls, hmem⟩ := notifyChild_exec_mem _ _ _ _ _ _ _ _ h
                  simp only [CMState.mk.injEq] at hls
                  rw [(stable_execute beh _ id newValue itc.value).1] at hls
                  exact ⟨key2, ls, hls, hmem⟩
              · obtain ⟨ls, hls, hmem⟩ := execute_exec_mem _ _ _ _ _ _ _ _ h
                exact ⟨id, ls, hls, hmem⟩
        · split at h
          · obtain ⟨ls, hls, hmem⟩ := execute_exec_mem _ _ _ _ _ _ _ _ h
            exact ⟨id, ls, hls, hmem⟩
          · split at h
            · obtain ⟨ls, hls, hmem⟩ := execute_exec_mem _ _ _ _ _ _ _ _ h
              exact ⟨id, ls, hls, hmem⟩
            · obtain ⟨ls, hls, hmem⟩ := execute_exec_mem _ _ _ _ _ _ _ _ h
              exact ⟨id, ls, hls, hmem⟩

theorem mutateAt_exec_mem (beh : Beh) (s : CMState) (id : Ident) (newValue : JsVal)
    (l : IListener) (vv oo : JsVal)
    (h : TraceEv.exec l vv oo ∈ (mutateAt beh s id newValue).2.1) :
    ∃ key2 ls, alook s.identifiers key2 = some ls ∧ l ∈ ls := by
  simp only [mutateAt] at h
  split at h
  · split at h
    · exact setObjectProp_exec_mem _ _ _ _ _ _ _ _ h
    · exact setPrimitiveProp_exec_mem _ _ _ _ _ _ _ _ h
  · simp at h

end ContextManager

namespace ContextManager

theorem identifiers_addHashLoop (id : Ident) :
    ∀ (rest : List String) (s : CMState) (ident : Ident),
      (addHashLoop s id ident rest).identifiers = s.identifiers := by
  intro rest
  induction rest with
  | nil => intro s ident; rfl
  | cons k r ih =>
      intro s ident
      simp only [addHashLoop]
      split <;> split <;> simp [ih]

theorem identifiers_addHashValues (s : CMState) (id : Ident) :
    (addHashValues s id).identifiers = s.identifiers := by
  unfold addHashValues
  split
  · rfl
  · split
    · dsimp only
      split
      · rfl
      · rw [identifiers_addHashLoop]
    · dsimp only
      split
      · rw [identifiers_addHashLoop]
      · rw [identifiers_addHashLoop]

theorem alook_addJ (s : CMState) (id0 : Ident) (L0 : IListener) (key : Ident) :
    alook (addJ s id0 L0).identifiers key =
      if id0 = key then some ((alook s.identifiers id0).getD [] ++ [L0])
      else alook s.identifiers key := by
  have hmain : (addJ s id0 L0).identifiers =
      aset s.identifiers id0 ((alook s.identifiers id0).getD [] ++ [L0]) := by
    unfold addJ
    dsimp only
    split
    · rw [identifiers_addHashValues]
    · rfl
  rw [hmain]
  by_cases hkey : id0 = key
  · subst hkey; simp [alook_aset_self]
  · simp [hkey, alook_aset_ne _ _ _ _ hkey]

theorem addJ_mem (s : CMState) (id0 : Ident) (L0 : IListener) (key : Ident)
    (ls : List IListener) (l : IListener)
    (h : alook (addJ s id0 L0).identifiers key = some ls) (hm : l ∈ ls) :
    (∃ ls0, alook s.identifiers key = some ls0 ∧ l ∈ ls0) ∨ (key = id0 ∧ l = L0) := by
  rw [alook_addJ] at h
  by_cases hkey : id0 = key
  · subst hkey
    rw [if_pos rfl] at h
    cases h
    rcases List.mem_append.1 hm with hm | hm
    · cases halook : alook s.identifiers id0 with
      | none => rw [halook] at hm; simp at hm
      | some ls0 => rw [halook] at hm; exact Or.inl ⟨ls0, rfl, hm⟩
    · simp only [List.mem_singleton] at hm
      exact Or.inr ⟨rfl, hm⟩
  · rw [if_neg hkey] at h
    exact Or.inl ⟨ls, h, hm⟩

theorem addObservableListener_mem (g : SState) (s : CMState) (self : Nat) (id0 : Ident)
    (L0 : IListener) (key : Ident) (ls : List IListener) (l : IListener)
    (h : alook (addObservableListener g s self id0 L0).2.1.identifiers key = some ls)
    (hm : l ∈ ls) :
    (∃ ls0, alook s.identifiers key = some ls0 ∧ l ∈ ls0) ∨ (key = id0 ∧ l = L0) :=
  addJ_mem s id0 L0 key ls l h hm

theorem addObservableListener_step (g : SState) (s : CMState) (self : Nat) (id0 : Ident)
    (L0 : IListener) : (addObservableListener g s self id0 L0).2.2 = (id0, L0.uid) := rfl

theorem removeCallback_mem (s : CMState) (id0 : Ident) (uid : String) (key : Ident)
    (ls : List IListener) (l : IListener)
    (h : alook (removeCallback s id0 uid).identifiers key = some ls) (hm : l ∈ ls) :
    ∃ ls0, alook s.identifiers key = some ls0 ∧ l ∈ ls0 ∧ (key = id0 → l.uid ≠ uid) := by
  unfold removeCallback at h
  cases halook : alook s.identifiers id0 with
  | none =>
      rw [halook] at h
      exact ⟨ls, h, hm, fun hk => by subst hk; rw [halook] at h; cases h⟩
  | some cbs =>
      rw [halook] at h
      have core : alook (aset s.identifiers id0 (spliceUid cbs uid)) key = some ls →
          ∃ ls0, alook s.identifiers key = some ls0 ∧ l ∈ ls0 ∧ (key = id0 → l.uid ≠ uid) := by
        intro hh
        by_cases hkey : id0 = key
        · subst hkey
          rw [alook_aset_self] at hh
          cases hh
          rw [spliceUid_eq_filter] at hm
          refine ⟨cbs, halook, List.mem_of_mem_filter hm, fun _ => ?_⟩
          have := List.of_mem_filter hm
          simpa using this
        · rw [alook_aset_ne _ _ _ _ hkey] at hh
          exact ⟨ls, hh, hm, fun hk => absurd hk.symm hkey⟩
      dsimp only at h
      split at h
      · exact core h
      · exact core h

theorem applyRemStep_mem (g : SState) (s : CMState) (step : Ident × String) (key : Ident)
    (ls : List IListener) (l : IListener)
    (h : alook (applyRemStep g s step).2.identifiers key = some ls) (hm : l ∈ ls) :
    ∃ ls0, alook s.identifiers key = some ls0 ∧ l ∈ ls0 ∧ ((key, l.uid) ≠ step) := by
  obtain ⟨ls0, h0, hm0, himp⟩ := removeCallback_mem s step.1 step.2 key ls l h hm
  refine ⟨ls0, h0, hm0, fun hcontra => ?_⟩
  have h1 : key = step.1 := congrArg Prod.fst hcontra
  have h2 : l.uid = step.2 := congrArg Prod.snd hcontra
  exact himp h1 h2

theorem applyRemover_mem :
    ∀ (steps : List (Ident × String)) (g : SState) (s : CMState) (key : Ident)
      (ls : List IListener) (l : IListener),
      alook (applyRemover g s steps).2.identifiers key = some ls → l ∈ ls →
      ∃ ls0, alook s.identifiers key = some ls0 ∧ l ∈ ls0 ∧ ((key, l.uid) ∉ steps) := by
  intro steps
  induction steps with
  | nil => intro g s key ls l h hm; exact ⟨ls, h, hm, by simp⟩
  | cons step rest ih =>
      intro g s key ls l h hm
      have hfold : applyRemover g s (step :: rest) =
          applyRemover (applyRemStep g s step).1 (applyRemStep g s step).2 rest := by
        simp [applyRemover, List.foldl_cons]
      rw [hfold] at h
      obtain ⟨ls1, h1, hm1, hnot1⟩ := ih _ _ _ _ _ h hm
      obtain ⟨ls0, h0, hm0, hne⟩ := applyRemStep_mem g s step key ls1 l h1 hm1
      exact ⟨ls0, h0, hm0, by simp [hne, hnot1]⟩

end ContextManager

theorem execLidMem_eq_false (tr : List TraceEv) (n : Nat)
    (h : ∀ (l : IListener) (vv oo : JsVal), TraceEv.exec l vv oo ∈ tr → l.lid ≠ n) :
    execLidMem tr n = false := by
  induction tr with
  | nil => rfl
  | cons ev rest ih =>
      have hrest : execLidMem rest n = false :=
        ih (fun l vv oo hm => h l vv oo (List.mem_cons_of_mem _ hm))
      cases ev with
      | exec l vv oo =>
          have hl : l.lid ≠ n := h l vv oo (List.mem_cons_self _ _)
          simp [execLidMem, hl, execLidMem] at hrest ⊢
          simpa [execLidMem] using hrest
      | arrcb u info => simpa [execLidMem] using hrest
      | warn id => simpa [execLidMem] using hrest

namespace ContextManager

theorem identifiers_readPropE (s : CMState) (id : Ident) (ctx : JsVal) (key : String) :
    (readPropE s id ctx key).1.identifiers = s.identifiers := by
  unfold readPropE; cases alook s.interceptors id <;> rfl

theorem identifiers_walkF :
    ∀ (rest : List String) (s : CMState) (ctx : JsVal) (done : Ident),
      (walkF rest s ctx done).1.identifiers = s.identifiers := by
  intro rest
  induction rest with
  | nil =>
      intro s ctx done
      simp only [walkF]
      split
      · rw [identifiers_readPropE]
      · rw [identifiers_readPropE]
  | cons r rs ih =>
      intro s ctx done
      simp only [walkF]
      split
      · rw [identifiers_readPropE]
      · split
        · rw [identifiers_readPropE]
        · rw [ih, identifiers_readPropE]

theorem obsResolve_state (g : SState) (s : CMState) (c : Nat) (split : Ident)
    (pre : ObsOut) (v : JsVal)
    (hok : (obsResolve g s c split pre).2.2.2.2 = .ok v) :
    (obsResolve g s c split pre).2.1.identifiers = s.identifiers ∨
    ((obsResolve g s c split pre).2.1.identifiers = pre.s.identifiers ∧
      ∃ u, pre.res = .ok u) := by
  obtain ⟨pg, ps, pc, ptr, pres⟩ := pre
  unfold obsResolve at hok ⊢
  by_cases h1 : split.isEmpty
  · rw [if_pos h1] at hok ⊢; exact Or.inl rfl
  · rw [if_neg h1] at hok ⊢
    dsimp only at hok ⊢
    by_cases h2 : (!isNull ((alook s.contextObjects split).getD .undef)) = true
    · rw [if_pos h2] at hok ⊢; exact Or.inl rfl
    · rw [if_neg h2] at hok ⊢
      cases pres with
      | error e => exact Except.noConfusion hok
      | ok u =>
          dsimp only at hok ⊢
          cases split with
          | nil => simp at h1
          | cons k0 ks =>
              dsimp only at hok ⊢
              revert hok
              cases hw : (walkF ks ps ps.context [k0]).2 with
              | error e =>
                  intro hok
                  try dsimp only at hok
                  exact Except.noConfusion hok
              | ok v2 =>
                  intro hok
                  exact Or.inr ⟨identifiers_walkF ks ps ps.context [k0], u, rfl⟩

theorem obsRegister_mem (g : SState) (s : CMState) (self : Nat) (absId : Ident)
    (observedId : Option Ident) (L0 : IListener) (key : Ident)
    (ls : List IListener) (l : IListener)
    (h : alook (obsRegister g s self absId observedId L0).2.1.identifiers key = some ls)
    (hm : l ∈ ls) :
    (∃ ls0, alook s.identifiers key = some ls0 ∧ l ∈ ls0) ∨
    (l = L0 ∧ (key, L0.uid) ∈ (obsRegister g s self absId observedId L0).2.2) := by
  unfold obsRegister at h ⊢
  cases observedId with
  | none =>
      try dsimp only at h ⊢
      rcases addJ_mem s absId L0 key ls l h hm with ⟨ls0, h0, hm0⟩ | ⟨hkey, hl⟩
      · exact Or.inl ⟨ls0, h0, hm0⟩
      · subst hkey
        exact Or.inr ⟨hl, List.mem_singleton.mpr rfl⟩
  | some o =>
      try dsimp only at h ⊢
      by_cases hne : absId ≠ o
      · rw [if_pos hne] at h ⊢
        try dsimp only at h ⊢
        rcases addJ_mem (addObservableListener g s self absId L0).2.1 o L0 key ls l h hm with
          ⟨ls1, h1, hm1⟩ | ⟨hkey, hl⟩
        · rcases addJ_mem s absId L0 key ls1 l h1 hm1 with ⟨ls0, h0, hm0⟩ | ⟨hkey2, hl2⟩
          · exact Or.inl ⟨ls0, h0, hm0⟩
          · subst hkey2
            exact Or.inr ⟨hl2, List.mem_cons_self _ _⟩
        · subst hkey
          exact Or.inr ⟨hl, List.mem_cons_of_mem _ (List.mem_singleton.mpr rfl)⟩
      · rw [if_neg hne] at h ⊢
        try dsimp only at h ⊢
        rcases addJ_mem s absId L0 key ls l h hm with ⟨ls0, h0, hm0⟩ | ⟨hkey, hl⟩
        · exact Or.inl ⟨ls0, h0, hm0⟩
        · subst hkey
          exact Or.inr ⟨hl, List.mem_singleton.mpr rfl⟩

theorem obsResolve_c (g : SState) (s : CMState) (c : Nat) (split : Ident) (pre : ObsOut) :
    (obsResolve g s c split pre).2.2.1 = c ∨ (obsResolve g s c split pre).2.2.1 = pre.c := by
  obtain ⟨pg, ps, pc, ptr, pres⟩ := pre
  unfold obsResolve
  by_cases h1 : split.isEmpty
  · rw [if_pos h1]; exact Or.inl rfl
  · rw [if_neg h1]
    dsimp only
    by_cases h2 : (!isNull ((alook s.contextObjects split).getD .undef)) = true
    · rw [if_pos h2]; exact Or.inl rfl
    · rw [if_neg h2]
      cases pres with
      | error e => exact Or.inr rfl
      | ok u =>
          dsimp only
          cases split with
          | nil => simp at h1
          | cons k0 ks =>
              dsimp only
              cases hw : (walkF ks ps ps.context [k0]).2 with
              | error e => exact Or.inr rfl
              | ok v2 => exact Or.inr rfl

theorem observeF_c_mono :
    ∀ (fuel : Nat) (g : SState) (s : CMState) (c self : Nat) (absId : Ident)
      (ol : Option IListener), c ≤ (observeF fuel g s c self absId ol).c := by
  intro fuel
  induction fuel with
  | zero => intro g s c self absId ol; exact le_refl c
  | succ n ih =>
      intro g s c self absId ol
      simp only [observeF]
      split
      · exact le_refl c
      · have hcpre : c ≤ ((if (alook s.identifiers absId.dropLast).isNone = true then
            observeF n g s c self absId.dropLast none
          else ⟨g, s, c, [], Except.ok none⟩ : ObsOut)).c := by
          split
          · exact ih g s c self absId.dropLast none
          · exact le_refl c
        have hro := obsResolve_c g s c absId.dropLast
          (if (alook s.identifiers absId.dropLast).isNone = true then
            observeF n g s c self absId.dropLast none
          else ⟨g, s, c, [], Except.ok none⟩)
        split
        next g1 s1 c1 tr1 e heq =>
          have hc1 : (obsResolve g s c absId.dropLast
              (if (alook s.identifiers absId.dropLast).isNone = true then
                observeF n g s c self absId.dropLast none
              else ⟨g, s, c, [], Except.ok none⟩)).2.2.1 = c1 := by rw [heq]
          rw [hc1] at hro
          rcases hro with h | h
          · exact h.ge
          · rw [h]; exact hcpre
        next g1 s1 c1 tr1 context heq =>
          have hc1 : (obsResolve g s c absId.dropLast
              (if (alook s.identifiers absId.dropLast).isNone = true then
                observeF n g s c self absId.dropLast none
              else ⟨g, s, c, [], Except.ok none⟩)).2.2.1 = c1 := by rw [heq]
          rw [hc1] at hro
          have hc : c ≤ c1 := by
            rcases hro with h | h
            · exact h.ge
            · rw [h]; exact hcpre
          try dsimp only
          split
          · split
            · exact hc
            · exact hc
          · split
            · try dsimp only
              split
              · split
                · split
                  · exact le_trans hc (le_trans (Nat.le_succ c1)
                      (ih _ _ (c1 + 1) self absId.dropLast _))
                  · exact le_trans hc (le_trans (Nat.le_succ c1)
                      (ih _ _ (c1 + 1) self absId.dropLast _))
                · exact hc
              · exact hc
            · try dsimp only
              split
              · split
                · exact hc
                · exact hc
              · exact hc

end ContextManager

namespace ContextManager

theorem observeF_mem :
    ∀ (fuel : Nat) (g : SState) (s : CMState) (c self : Nat) (absId : Ident)
      (ol : Option IListener) (r : Option (List (Ident × String)))
      (key : Ident) (ls : List IListener) (l : IListener),
      (observeF fuel g s c self absId ol).res = .ok r →
      alook (observeF fuel g s c self absId ol).s.identifiers key = some ls → l ∈ ls →
      (∃ ls0, alook s.identifiers key = some ls0 ∧ l ∈ ls0) ∨ c ≤ l.lid ∨
      (∃ L0 steps, ol = some L0 ∧ l = L0 ∧ r = some steps ∧ (key, L0.uid) ∈ steps) := by
  intro fuel
  induction fuel with
  | zero =>
      intro g s c self absId ol r key ls l hres hlook hm
      exact absurd hres (by simp [observeF])
  | succ n ih =>
      intro g s c self absId ol r key ls l hres hlook hm
      simp only [observeF] at hres hlook
      by_cases hemp : absId.isEmpty
      · rw [if_pos hemp] at hres hlook
        exact Or.inl ⟨ls, hlook, hm⟩
      · rw [if_neg hemp] at hres hlook
        generalize hPRE : (if (alook s.identifiers absId.dropLast).isNone = true then
            observeF n g s c self absId.dropLast none
          else (⟨g, s, c, [], Except.ok none⟩ : ObsOut)) = PRE at hres hlook
        have hpreMem : ∀ (r2 : Option (List (Ident × String))) (key2 : Ident)
            (ls2 : List IListener) (l2 : IListener), PRE.res = .ok r2 →
            alook PRE.s.identifiers key2 = some ls2 → l2 ∈ ls2 →
            (∃ ls0, alook s.identifiers key2 = some ls0 ∧ l2 ∈ ls0) ∨ c ≤ l2.lid := by
          intro r2 key2 ls2 l2 hr2 hl2 hm2
          rw [← hPRE] at hr2 hl2
          by_cases hcN : (alook s.identifiers absId.dropLast).isNone = true
          · rw [if_pos hcN] at hr2 hl2
            rcases ih g s c self absId.dropLast none r2 key2 ls2 l2 hr2 hl2 hm2 with
              h | h | ⟨L0, steps, hol, _⟩
            · exact Or.inl h
            · exact Or.inr h
            · cases hol
          · rw [if_neg hcN] at hr2 hl2
            exact Or.inl ⟨ls2, hl2, hm2⟩
        have hcPRE : c ≤ PRE.c := by
          rw [← hPRE]
          split
          · exact observeF_c_mono n g s c self absId.dropLast none
          · exact le_refl c
        have hS1full := obsResolve_state g s c absId.dropLast PRE
        have hC1full := obsResolve_c g s c absId.dropLast PRE
        generalize hRO : obsResolve g s c absId.dropLast PRE = RO at hres hlook hS1full hC1full
        obtain ⟨g1, s1, c1, tr1, res1⟩ := RO
        cases res1 with
        | error e =>
            dsimp only at hres
            exact Except.noConfusion hres
        | ok context =>
            dsimp only at hres hlook hS1full hC1full
            have hS1 := hS1full context rfl
            have hC1 : c ≤ c1 := by
              rcases hC1full with h | h
              · exact h.ge
              · rw [h]; exact hcPRE
            have hs1Mem : ∀ (key2 : Ident) (ls2 : List IListener) (l2 : IListener),
                alook s1.identifiers key2 = some ls2 → l2 ∈ ls2 →
                (∃ ls0, alook s.identifiers key2 = some ls0 ∧ l2 ∈ ls0) ∨ c ≤ l2.lid := by
              intro key2 ls2 l2 h2 hm2
              rcases hS1 with hS | ⟨hS, u, hu⟩
              · rw [hS] at h2; exact Or.inl ⟨ls2, h2, hm2⟩
              · rw [hS] at h2; exact hpreMem u key2 ls2 l2 hu h2 hm2
            by_cases hobj : (!isObjectOrArray context) = true
            · rw [if_pos hobj] at hres hlook
              cases ol with
              | some l0 =>
                  dsimp only at hres hlook
                  cases hres
                  rcases addJ_mem s1 absId l0 key ls l hlook hm with ⟨ls0, h0, hm0⟩ | ⟨hkey, hl⟩
                  · rcases hs1Mem key ls0 l h0 hm0 with h | h
                    · exact Or.inl h
                    · exact Or.inr (Or.inl h)
                  · subst hkey
                    exact Or.inr (Or.inr ⟨l0, _, rfl, hl, rfl, List.mem_singleton.mpr rfl⟩)
              | none =>
                  dsimp only at hres hlook
                  cases hres
                  rcases hs1Mem key ls l hlook hm with h | h
                  · exact Or.inl h
                  · exact Or.inr (Or.inl h)
            · rw [if_neg hobj] at hres hlook
              try dsimp only at hres hlook
              cases ol with
              | some l0 =>
                  try dsimp only at hres hlook
                  generalize hz : readProp { s1 with observedIdentifier := none } absId context
                      (List.getLastD absId "") = z at hres hlook
                  obtain ⟨zs, zv⟩ := z
                  try dsimp only at hres hlook
                  have hzsid : zs.identifiers = s1.identifiers := by
                    have h9 := identifiers_readProp { s1 with observedIdentifier := none }
                      absId context (List.getLastD absId "")
                    rw [hz] at h9
                    exact h9
                  generalize hS2 : ({ zs with
                      contextObjects := aset zs.contextObjects absId zv } : CMState) = s2
                    at hres hlook
                  have hs2id : s2.identifiers = s1.identifiers := by
                    rw [← hS2]; exact hzsid
                  have hregMem : ∀ (key2 : Ident) (ls2 : List IListener) (l2 : IListener),
                      alook (obsRegister g1 s2 self absId
                          zs.observedIdentifier l0).2.1.identifiers key2 = some ls2 →
                      l2 ∈ ls2 →
                      (∃ ls0, alook s.identifiers key2 = some ls0 ∧ l2 ∈ ls0) ∨ c ≤ l2.lid ∨
                      (l2 = l0 ∧ (key2, l0.uid) ∈
                        (obsRegister g1 s2 self absId zs.observedIdentifier l0).2.2) := by
                    intro key2 ls2 l2 h2 hm2
                    rcases obsRegister_mem g1 s2 self absId zs.observedIdentifier l0 key2 ls2 l2
                        h2 hm2 with ⟨ls0, h0, hm0⟩ | ⟨hl, hstep⟩
                    · rw [hs2id] at h0
                      rcases hs1Mem key2 ls0 l2 h0 hm0 with h | h
                      · exact Or.inl h
                      · exact Or.inr (Or.inl h)
                    · exact Or.inr (Or.inr ⟨hl, hstep⟩)
                  by_cases hhid : (!(hasIdentifier s absId || zs.observedIdentifier.isSome))
                      = true
                  · rw [if_pos hhid] at hres hlook
                    by_cases harr : (isArrayVal context = true ∧ List.getLastD absId "" = "length")
                    · rw [if_pos harr] at hres hlook
                      generalize hO2 : observeF n
                          (obsRegister g1 s2 self absId zs.observedIdentifier l0).1
                          (obsRegister g1 s2 self absId zs.observedIdentifier l0).2.1 (c1 + 1)
                          self absId.dropLast (some ⟨l0.uid, c1⟩) = o2 at hres hlook
                      obtain ⟨og, os, oc, otr, ores⟩ := o2
                      try dsimp only at hres hlook
                      cases ores with
                      | error e => exact Except.noConfusion hres
                      | ok u =>
                          try dsimp only at hres hlook
                          injection hres with hres2
                          subst hres2
                          have hres9 : (observeF n
                              (obsRegister g1 s2 self absId zs.observedIdentifier l0).1
                              (obsRegister g1 s2 self absId zs.observedIdentifier l0).2.1
                              (c1 + 1) self absId.dropLast (some ⟨l0.uid, c1⟩)).res =
                              .ok u := by rw [hO2]
                          have hlook9 : alook (observeF n
                              (obsRegister g1 s2 self absId zs.observedIdentifier l0).1
                              (obsRegister g1 s2 self absId zs.observedIdentifier l0).2.1
                              (c1 + 1) self absId.dropLast
                              (some ⟨l0.uid, c1⟩)).s.identifiers key = some ls := by
                            rw [hO2]; exact hlook
                          rcases ih _ _ _ self absId.dropLast _ u key ls l hres9 hlook9 hm with
                            ⟨ls0, h0, hm0⟩ | h | ⟨L0, steps2, hol, hlL0, hru, hstep⟩
                          · rcases hregMem key ls0 l h0 hm0 with h | h | ⟨hl, hstep⟩
                            · exact Or.inl h
                            · exact Or.inr (Or.inl h)
                            · exact Or.inr (Or.inr ⟨l0, _, rfl, hl, rfl, hstep⟩)
                          · exact Or.inr (Or.inl (le_trans hC1 (le_trans (Nat.le_succ c1) h)))
                          · injection hol with hol2
                            subst hol2
                            subst hlL0
                            exact Or.inr (Or.inl hC1)
                    · rw [if_neg harr] at hres hlook
                      try dsimp only at hres hlook
                      injection hres with hres2
                      subst hres2
                      rw [identifiers_defineM] at hlook
                      rcases hregMem key ls l hlook hm with h | h | ⟨hl, hstep⟩
                      · exact Or.inl h
                      · exact Or.inr (Or.inl h)
                      · exact Or.inr (Or.inr ⟨l0, _, rfl, hl, rfl, hstep⟩)
                  · rw [if_neg hhid] at hres hlook
                    try dsimp only at hres hlook
                    injection hres with hres2
                    subst hres2
                    rcases hregMem key ls l hlook hm with h | h | ⟨hl, hstep⟩
                    · exact Or.inl h
                    · exact Or.inr (Or.inl h)
                    · exact Or.inr (Or.inr ⟨l0, _, rfl, hl, rfl, hstep⟩)
              | none =>
                  try dsimp only at hres hlook
                  generalize hz : readProp { s1 with observedIdentifier := none } absId context
                      (List.getLastD absId "") = z at hres hlook
                  obtain ⟨zs, zv⟩ := z
                  try dsimp only at hres hlook
                  have hzsid : zs.identifiers = s1.identifiers := by
                    have h9 := identifiers_readProp { s1 with observedIdentifier := none }
                      absId context (List.getLastD absId "")
                    rw [hz] at h9
                    exact h9
                  generalize hS2 : ({ zs with
                      contextObjects := aset zs.contextObjects absId zv } : CMState) = s2
                    at hres hlook
                  have hs2id : s2.identifiers = s1.identifiers := by
                    rw [← hS2]; exact hzsid
                  have hs2Mem : ∀ (key2 : Ident) (ls2 : List IListener) (l2 : IListener),
                      alook s2.identifiers key2 = some ls2 → l2 ∈ ls2 →
                      (∃ ls0, alook s.identifiers key2 = some ls0 ∧ l2 ∈ ls0) ∨ c ≤ l2.lid := by
                    intro key2 ls2 l2 h2 hm2
                    rw [hs2id] at h2
                    exact hs1Mem key2 ls2 l2 h2 hm2
                  by_cases hhid : (!(hasIdentifier s absId || zs.observedIdentifier.isSome))
                      = true
                  · rw [if_pos hhid] at hres hlook
                    by_cases harr : (isArrayVal context = true ∧ List.getLastD absId "" = "length")
                    · rw [if_pos harr] at hres
                      exact Except.noConfusion hres
                    · rw [if_neg harr] at hres hlook
                      try dsimp only at hres hlook
                      rw [identifiers_defineM] at hlook
                      rcases hs2Mem key ls l hlook hm with h | h
                      · exact Or.inl h
                      · exact Or.inr (Or.inl h)
                  · rw [if_neg hhid] at hres hlook
                    try dsimp only at hres hlook
                    rcases hs2Mem key ls l hlook hm with h | h
                    · exact Or.inl h
                    · exact Or.inr (Or.inl h)

end ContextManager

/-- C4: for every non-empty identifier `I`, fresh listener `L` (its function id
is not yet registered anywhere) and value `v`, calling `observe I L`, then
invoking the returned remove function (replaying its recorded
`_removeCallback` steps), then mutating the property at `I` to `v`, never
invokes `L`: no `_execute` event for `L`'s function id appears in the
mutation's dispatch trace. -/
theorem c4_observe_remove_mutate_silent
    (g : SState) (s : CMState) (c self : Nat) (I : Ident) (L : IListener)
    (beh : Beh) (v : JsVal) (steps : List (Ident × String))
    (hfresh : ∀ (key : Ident) (ls : List IListener) (l : IListener),
      alook s.identifiers key = some ls → l ∈ ls → l.lid ≠ L.lid)
    (hc : L.lid < c)
    (hres : (ContextManager.observe g s c self I (some L)).res = .ok (some steps)) :
    execLidMem (ContextManager.mutateAt beh
      (ContextManager.applyRemover (ContextManager.observe g s c self I (some L)).g
        (ContextManager.observe g s c self I (some L)).s steps).2 I v).2.1 L.lid = false := by
  apply execLidMem_eq_false
  intro l vv oo hmem hlid
  obtain ⟨key2, ls, hls, hmemls⟩ :=
    ContextManager.mutateAt_exec_mem beh _ I v l vv oo hmem
  obtain ⟨ls0, h0, hm0, hnot⟩ :=
    ContextManager.applyRemover_mem steps _ _ key2 ls l hls hmemls
  rcases ContextManager.observeF_mem (I.length + 1) g s c self I (some L) (some steps)
      key2 ls0 l hres h0 hm0 with
    ⟨ls1, h1, hm1⟩ | h | ⟨L0, steps2, hol, hlL0, hrs, hstep⟩
  · exact hfresh key2 ls1 l h1 hm1 hlid
  · exact absurd hlid (by omega)
  · injection hol with hol2
    subst hol2
    subst hlL0
    injection hrs with hrs2
    subst hrs2
    exact hnot hstep

/-- Witness for C4 at the concrete scenario: observing `a` on `{a: 1}` with a
fresh listener, replaying the returned removal steps, then assigning `2` at
`a` produces no `_execute` event for the listener's function id. -/
theorem c4_witness :
    execLidMem (ContextManager.mutateAt behOk remC4.2 ["a"] (.jsnum 2)).2.1 1 = false := by
  exact c4_observe_remove_mutate_silent SState.empty (CMState.fresh ctxC2) 10 0 ["a"]
    ⟨"u", 1⟩ behOk (.jsnum 2) (obsSteps obs1C2)
    (by intro key ls l h hm; simp [CMState.fresh, alook] at h)
    (by decide)
    (by rfl)


namespace ContextManager

theorem execList_allOk (beh : Beh) (v old : JsVal)
    (hbeh : ∀ n, beh n v old = .ok ()) :
    ∀ ls : List IListener,
      execList beh v old ls = (ls.map (fun l => .exec l v old), .ok ()) := by
  intro ls
  induction ls with
  | nil => rfl
  | cons l rest ih =>
      simp only [execList, hbeh l.lid, ih, List.map]

theorem execute_allOk (beh : Beh) (s : CMState) (id : Ident) (v old : JsVal)
    (ls : List IListener) (hls : alook s.identifiers id = some ls)
    (hbeh : ∀ n, beh n v old = .ok ()) :
    (execute beh s id v old).2 = (ls.map (fun l => .exec l v old), .ok ()) := by
  simp only [execute]
  rw [hls]
  try dsimp only
  rw [execList_allOk beh v old hbeh ls]

theorem arrCbLoop_allOk (abeh : ABeh) (info : ArrayMethodInfo)
    (habeh : ∀ n, abeh n info = .ok ()) :
    ∀ cbs : List (String × Nat),
      arrCbLoop abeh info cbs = (cbs.map (fun p => .arrcb p.1 info), .ok ()) := by
  intro cbs
  induction cbs with
  | nil => rfl
  | cons p rest ih =>
      simp only [arrCbLoop, habeh p.2, ih, List.map]

theorem isArrayFunction_observedArrayTail (beh : Beh) (abeh : ABeh) (s : CMState)
    (absId : Ident) (method : String) (cbs : List (String × Nat))
    (oldArray newArr args : List JsVal) (ret : JsVal) :
    (observedArrayTail beh abeh s absId method cbs oldArray newArr args ret).1.isArrayFunction =
      s.isArrayFunction := by
  simp only [observedArrayTail]
  by_cases h : oldArray.length ≠ newArr.length
  · rw [if_pos h]
    cases hz : (execute beh s (absId ++ ["length"]) (.jsnum newArr.length)
        (.jsnum oldArray.length)).2.2 with
    | error e =>
        try dsimp only
        exact (stable_execute beh s (absId ++ ["length"]) (.jsnum newArr.length)
          (.jsnum oldArray.length)).2
    | ok u =>
        cases hw : (arrCbLoop abeh ⟨method, ret, oldArray, newArr, args⟩ cbs).2 with
        | error e =>
            try dsimp only
            exact (stable_execute beh s (absId ++ ["length"]) (.jsnum newArr.length)
              (.jsnum oldArray.length)).2
        | ok u2 =>
            try dsimp only
            exact (stable_execute beh s (absId ++ ["length"]) (.jsnum newArr.length)
              (.jsnum oldArray.length)).2
  · rw [if_neg h]
    cases hw : (arrCbLoop abeh ⟨method, ret, oldArray, newArr, args⟩ cbs).2 with
    | error e => rfl
    | ok u2 => rfl

end ContextManager

theorem specResolve_null (v : JsVal) (rest : List String) (h : isNull v = true) :
    specResolve v rest = .jsnull := by
  cases rest with
  | nil => simp [specResolve, h]
  | cons k r => simp [specResolve, h]

/-- C1: `_execute` has no catch around its listener loop — when a listener
throws, dispatch stops at that listener (the remaining listeners in the
identifier's list never run) and the exception propagates to the caller, i.e.
to the property setter that triggered the notification. -/
theorem c1_execute_throw_aborts (beh : Beh) (s : CMState) (id : Ident) (v old : JsVal)
    (p : IListener) (rest : List IListener)
    (hls : alook s.identifiers id = some (p :: rest))
    (hthrow : beh p.lid v old = .error ()) :
    (ContextManager.execute beh s id v old).2 = ([.exec p v old], .error ()) := by
  simp only [ContextManager.execute]
  rw [hls]
  try dsimp only
  simp only [ContextManager.execList]
  rw [hthrow]

/-- Witness for C1: two listeners on `a`, the first throws — only the first
is invoked and the error escapes `_execute`. -/
theorem c1_witness :
    (ContextManager.execute behC1 sC1 ["a"] (.jsnum 2) (.jsnum 1)).2 =
      ([.exec ⟨"u", 0⟩ (.jsnum 2) (.jsnum 1)], .error ()) :=
  c1_execute_throw_aborts behC1 sC1 ["a"] (.jsnum 2) (.jsnum 1) ⟨"u", 0⟩ [⟨"u", 1⟩] rfl rfl

/-- Counterexample to C1 as claimed: with two listeners registered on `a` and
the first throwing, the exception propagates out of `_execute` (it is not
caught at the dispatch boundary) and the remaining listener is never run. -/
theorem c1_counterexample :
    (ContextManager.execute behC1 sC1 ["a"] (.jsnum 2) (.jsnum 1)).2.2 = .error () ∧
    execCountFor (ContextManager.execute behC1 sC1 ["a"] (.jsnum 2) (.jsnum 1)).2.1
      ⟨"u", 1⟩ = 0 :=
  ⟨rfl, rfl⟩

/-- C2: `_removeCallback(identifier, uid)` removes every callback stored for
that uid at that identifier (the splice loop filters by uid), not just the one
registration whose remove function was invoked. -/
theorem c2_remove_removes_all_for_uid (s : CMState) (id : Ident) (uid : String)
    (ls : List IListener) (h : alook s.identifiers id = some ls) :
    alook (ContextManager.removeCallback s id uid).identifiers id =
      some (ls.filter (fun c => c.uid ≠ uid)) := by
  simp only [ContextManager.removeCallback]
  rw [h]
  try dsimp only
  by_cases he : (ContextManager.spliceUid ls uid).isEmpty = true
  · rw [if_pos he]
    try dsimp only
    rw [alook_aset_self, spliceUid_eq_filter]
  · rw [if_neg he]
    try dsimp only
    rw [alook_aset_self, spliceUid_eq_filter]

/-- Witness for C2: removing uid `u` at `a` from a manager holding two
registrations for `u` empties the whole list. -/
theorem c2_witness :
    alook (ContextManager.removeCallback sC1 ["a"] "u").identifiers ["a"] = some [] :=
  c2_remove_removes_all_for_uid sC1 ["a"] "u" [⟨"u", 0⟩, ⟨"u", 1⟩] rfl

/-- Counterexample to C2 as claimed: after the same uid observes `a` twice
(both registrations present), invoking the remove function returned by the
first observe call deletes both registrations, not just its own. -/
theorem c2_counterexample :
    alook obs2C2.s.identifiers ["a"] = some [⟨"u", 1⟩, ⟨"u", 2⟩] ∧
    alook remC2.2.identifiers ["a"] = some [] :=
  ⟨rfl, rfl⟩

/-- C3: `_removeCallback` never deletes a key of `__identifiers` — it
reassigns the filtered (possibly empty) array under the same key, so a key
present before a removal is still present after it (only the
`__identifierHash` and `__contextObjects` entries are deleted when the list
empties). -/
theorem c3_remove_never_deletes_keys (s : CMState) (id k : Ident) (uid : String)
    (h : (alook s.identifiers k).isSome = true) :
    (alook (ContextManager.removeCallback s id uid).identifiers k).isSome = true := by
  simp only [ContextManager.removeCallback]
  cases hl : alook s.identifiers id with
  | none => exact h
  | some cbs =>
      try dsimp only
      by_cases he : (ContextManager.spliceUid cbs uid).isEmpty = true
      · rw [if_pos he]
        try dsimp only
        by_cases hk : id = k
        · subst hk
          rw [alook_aset_self]
          rfl
        · rw [alook_aset_ne _ _ _ _ hk]
          exact h
      · rw [if_neg he]
        try dsimp only
        by_cases hk : id = k
        · subst hk
          rw [alook_aset_self]
          rfl
        · rw [alook_aset_ne _ _ _ _ hk]
          exact h

/-- Witness for C3: removing the only uid at `a` leaves the key `a` present
in `__identifiers`. -/
theorem c3_witness :
    (alook (ContextManager.removeCallback sC1 ["a"] "u").identifiers ["a"]).isSome = true :=
  c3_remove_never_deletes_keys sC1 ["a"] ["a"] "u" rfl

/-- Counterexample to C3 as claimed: after observing `a` and invoking the
returned remove function (removing the identifier's last listener), the key
`a` is still present in `__identifiers`, bound to the empty list. -/
theorem c3_counterexample :
    alook remC4.2.identifiers ["a"] = some [] :=
  rfl

/-- C5 (amended): for the non-shift wrapped array methods (those whose name
does not contain `shift`), a call that changes the length with non-throwing
listeners and callbacks dispatches exactly one `_execute` pass over the
`<identifier>.length` listeners (new length vs old length) followed by exactly
one structured event `{method, returnValue, oldArray, newArray, arguments}`
to each registered owner-uid callback, in registration order.  (The
shift-class methods additionally run `_notifyChildProperties` first, which
can notify the same `length` listeners a second time — see the
counterexample.) -/
theorem c5_nonshift_dispatch (beh : Beh) (abeh : ABeh) (s : CMState) (absId : Ident)
    (method : String) (cbs : List (String × Nat)) (arr args newArr : List JsVal)
    (ret : JsVal) (raw : List JsVal → List JsVal → Except Unit (List JsVal × JsVal))
    (lenL : List IListener)
    (hns : strContains method "shift" = false)
    (hraw : raw arr args = .ok (newArr, ret))
    (hlen : arr.length ≠ newArr.length)
    (hlenL : alook s.identifiers (absId ++ ["length"]) = some lenL)
    (hbeh : ∀ n, beh n (JsVal.jsnum newArr.length) (JsVal.jsnum arr.length) = .ok ())
    (habeh : ∀ n, abeh n ⟨method, ret, arr, newArr, args⟩ = .ok ()) :
    (ContextManager.observedArrayFn beh abeh s absId method cbs arr args raw).2.1 =
      lenL.map (fun l => TraceEv.exec l (.jsnum newArr.length) (.jsnum arr.length)) ++
      cbs.map (fun p => TraceEv.arrcb p.1 ⟨method, ret, arr, newArr, args⟩) := by
  simp only [ContextManager.observedArrayFn]
  rw [if_neg (by simp [hns])]
  rw [hraw]
  try dsimp only
  simp only [ContextManager.observedArrayTail]
  rw [if_pos hlen]
  have hz := ContextManager.execute_allOk beh s (absId ++ ["length"])
    (.jsnum newArr.length) (.jsnum arr.length) lenL hlenL hbeh
  have hz2 : (ContextManager.execute beh s (absId ++ ["length"])
      (.jsnum newArr.length) (.jsnum arr.length)).2.2 = .ok () := by rw [hz]
  have hz1 : (ContextManager.execute beh s (absId ++ ["length"])
      (.jsnum newArr.length) (.jsnum arr.length)).2.1 =
      lenL.map (fun l => TraceEv.exec l (.jsnum newArr.length) (.jsnum arr.length)) := by
    rw [hz]
  rw [hz2]
  try dsimp only
  rw [ContextManager.arrCbLoop_allOk abeh ⟨method, ret, arr, newArr, args⟩ habeh cbs]
  try dsimp only
  rw [hz1]

/-- Witness for C5: pushing `2` onto the observed `[1]` with one `length`
listener and one registered callback yields exactly one `length` `_execute`
and one structured callback event. -/
theorem c5_witness :
    (ContextManager.observedArrayFn behOk abehOk sC5w ["items"] "push" [("u", 0)]
      [.jsnum 1] [.jsnum 2] rawPush).2.1 =
      [TraceEv.exec ⟨"u", 5⟩ (.jsnum 2) (.jsnum 1),
       TraceEv.arrcb "u" ⟨"push", .jsnum 2, [.jsnum 1], [.jsnum 1, .jsnum 2], [.jsnum 2]⟩] :=
  c5_nonshift_dispatch behOk abehOk sC5w ["items"] "push" [("u", 0)] [.jsnum 1]
    [.jsnum 2] [.jsnum 1, .jsnum 2] (.jsnum 2) rawPush [⟨"u", 5⟩]
    rfl rfl (by decide) rfl (fun n => rfl) (fun n => rfl)

/-- Counterexample to C5 as claimed: `unshift` on the observed `[1, 2, 3]`
with a listener registered on `items.length` invokes that listener twice in
one call (once through `_notifyChildProperties`, once through the wrapper's
direct `_execute`), while the owner callback fires once. -/
theorem c5_counterexample :
    execCountFor runC5.2.1 ⟨"u", 5⟩ = 2 ∧ arrcbCountFor runC5.2.1 "u" = 1 :=
  ⟨rfl, rfl⟩

/-- C6 (amended): only the shift-class methods (names containing `shift`) set
the `__isArrayFunction` guard; the guard is cleared by a plain assignment
after the raw call with no try/finally, so a throwing raw method leaves it
set, and the other methods never touch it. -/
theorem c6_guard_final_state (beh : Beh) (abeh : ABeh) (s : CMState) (absId : Ident)
    (method : String) (cbs : List (String × Nat)) (arr args : List JsVal)
    (raw : List JsVal → List JsVal → Except Unit (List JsVal × JsVal)) :
    (ContextManager.observedArrayFn beh abeh s absId method cbs arr args raw).1.isArrayFunction =
      (if strContains method "shift" then
        (match raw arr args with | .error _ => true | .ok _ => false)
      else s.isArrayFunction) := by
  simp only [ContextManager.observedArrayFn]
  by_cases hm : strContains method "shift" = true
  · rw [if_pos hm, if_pos hm]
    cases hr : raw arr args with
    | error e => rfl
    | ok p =>
        obtain ⟨newArr, ret⟩ := p
        try dsimp only
        cases hw : (ContextManager.notifyChildProperties beh { s with isArrayFunction := false }
            absId (JsVal.arr newArr) (JsVal.arr arr)).2.2 with
        | error e =>
            try dsimp only
            exact (ContextManager.stable_notifyChild beh { s with isArrayFunction := false }
              absId (JsVal.arr newArr) (JsVal.arr arr)).2
        | ok u =>
            try dsimp only
            rw [ContextManager.isArrayFunction_observedArrayTail]
            exact (ContextManager.stable_notifyChild beh { s with isArrayFunction := false }
              absId (JsVal.arr newArr) (JsVal.arr arr)).2
  · rw [if_neg hm, if_neg hm]
    cases hr : raw arr args with
    | error e => rfl
    | ok p =>
        obtain ⟨newArr, ret⟩ := p
        try dsimp only
        exact ContextManager.isArrayFunction_observedArrayTail beh abeh s absId method cbs
          arr newArr args ret

/-- Counterexample to C6 as claimed: an `unshift` whose underlying
`Array.prototype` call throws returns control to the caller with
`__isArrayFunction` still `true`, although it was `false` before the call. -/
theorem c6_counterexample :
    (CMState.fresh (JsVal.obj [])).isArrayFunction = false ∧
    (ContextManager.observedArrayFn behOk abehOk (CMState.fresh (JsVal.obj [])) ["items"]
      "unshift" [] [.jsnum 1] [] rawThrow).1.isArrayFunction = true :=
  ⟨rfl, rfl⟩

/-- C7 (amended): static `dispose(control, persist)` returns without touching
the `context` property when the owner→identifier index has no entry for the
control's uid; when it proceeds and the context is non-null, it redefines
`context` via `defineProperty(control, 'context', persist ? deepExtend({},
context) : null, true, true)` — i.e. the property stays **enumerable and
configurable** (and, `Object.defineProperty` leaving the unspecified
`writable` attribute of an existing configurable property unchanged, keeps
its previous writability); its value becomes `null`, or a deep copy of the
context when `persist` is true. -/
theorem c7_dispose_descriptor (g : GState) (control : Owner) (persist : Bool)
    (d : PropDesc) (hd : alook control.props "context" = some d) :
    (alook g.sst.controls control.uid = none →
      (disposeStatic g (some control) persist).2 = some control) ∧
    ((alook g.sst.controls control.uid).isSome = true → isNull d.value = false →
      alook ((disposeStatic g (some control) persist).2.getD control).props "context" =
        some ⟨if persist then deepExtendEmpty d.value else .jsnull, d.writable, true, true⟩) := by
  constructor
  · intro hnone
    simp only [disposeStatic]
    rw [hnone]
  · intro hsome hnn
    cases hi : alook g.sst.controls control.uid with
    | none => rw [hi] at hsome; exact absurd hsome (by simp)
    | some idents =>
        simp only [disposeStatic]
        rw [hi]
        try dsimp only
        have hcv : control.contextVal = d.value := by
          simp [Owner.contextVal, hd]
        have hcond : (!(isNull control.contextVal)) = true := by
          rw [hcv, hnn]
          rfl
        rw [if_pos hcond]
        try dsimp only
        simp only [definePropertyM]
        rw [hd]
        try dsimp only
        rw [Option.getD_some]
        try dsimp only
        rw [hcv, alook_aset_self]

/-- Witness for C7: disposing `ownerB` (whose uid has an index entry and whose
context is a non-null object) with `persist = false` leaves `context` as an
enumerable, configurable, still-writable property whose value is `null`. -/
theorem c7_witness :
    alook ((disposeStatic gB (some ownerB) false).2.getD ownerB).props "context" =
      some ⟨.jsnull, true, true, true⟩ :=
  (c7_dispose_descriptor gB ownerB false ⟨JsVal.obj [("x", .jsnum 1)], true, true, true⟩
    rfl).2 rfl rfl

/-- Counterexample to C7 as claimed: `ownerA` has a non-null object context,
but its uid has no entry in the owner→identifier index, so static dispose
returns early — `context` keeps its original plain data descriptor (writable,
enumerable, configurable, value the old object) instead of being redefined as
a non-configurable, non-enumerable null. -/
theorem c7_counterexample :
    (disposeStatic gA (some ownerA) false).2 = some ownerA ∧
    alook ownerA.props "context" = some ⟨JsVal.obj [("x", .jsnum 1)], true, true, true⟩ :=
  ⟨rfl, rfl⟩

/-- C8: the static `getContext(rootContext, split)` walk equals the spec's
path-resolution contract — it returns `.ok` of the resolved value on every
input (so it never throws), yielding `null` as soon as the root or an
intermediate value is null/undefined; the embedding is pure, so the root
object and the segment list are not mutated. -/
theorem c8_getContext_refines (root : JsVal) (split : List String) :
    getContextStatic root split = .ok (specResolve root split) := by
  induction split generalizing root with
  | nil =>
      by_cases h : isNull root = true
      · simp [getContextStatic, sgLoop, specResolve, h]
      · simp [getContextStatic, sgLoop, specResolve, h]
  | cons k rest ih =>
      by_cases h : isNull root = true
      · simp [getContextStatic, specResolve, h]
      · have hb : isNull root = false := by
          revert h
          cases isNull root <;> simp
        have hg : getPropE root k = .ok (getProp root k) := by
          cases root with
          | undef => simp [isNull] at hb
          | jsnull => simp [isNull] at hb
          | jsbool b => rfl
          | jsnum n => rfl
          | jsstr t => rfl
          | jsobj fs => rfl
          | jsarr es => rfl
        simp only [getContextStatic, hb, Bool.false_eq_true, if_false, sgLoop, hg]
        try dsimp only
        by_cases h2 : isNull (getProp root k) = true
        · rw [if_pos h2]
          simp only [specResolve, hb, Bool.false_eq_true, if_false]
          rw [specResolve_null (getProp root k) rest h2]
        · rw [if_neg h2]
          have h3 := ih (getProp root k)
          have hb2 : isNull (getProp root k) = false := by
            revert h2
            cases isNull (getProp root k) <;> simp
          simp only [getContextStatic, hb2, Bool.false_eq_true, if_false] at h3
          rw [h3]
          simp only [specResolve, hb, Bool.false_eq_true, if_false]

/-- C9: assigning through an installed accessor a value strict-equal to the
captured current value is a complete no-op — no listener runs (empty trace),
nothing throws, and the manager state (stored value, `__contextObjects`
cache, every registry) is returned unchanged. -/
theorem c9_equal_assignment_noop (beh : Beh) (s : CMState) (id : Ident)
    (itc : Interceptor) (v : JsVal)
    (hitc : alook s.interceptors id = some itc) (heq : itc.value = v) :
    ContextManager.mutateAt beh s id v = (s, [], .ok ()) := by
  simp only [ContextManager.mutateAt]
  rw [hitc]
  try dsimp only
  by_cases hk : itc.isObjectKind = true
  · rw [if_pos hk]
    simp only [ContextManager.setObjectProp]
    rw [if_pos heq]
  · rw [if_neg hk]
    simp only [ContextManager.setPrimitiveProp]
    rw [if_pos heq]

/-- Witness for C9: re-assigning the captured value `1` at `a` through the
installed accessor returns the state unchanged with an empty trace. -/
theorem c9_witness :
    ContextManager.mutateAt behOk sC9 ["a"] (.jsnum 1) = (sC9, [], .ok ()) :=
  c9_equal_assignment_noop behOk sC9 ["a"] itcC9 (.jsnum 1) rfl rfl

/-- C10: static `dispose` called with a null control returns immediately —
no exception, and the whole process-wide state (manager registry,
owner→identifier index, array-mutation table) is returned unchanged. -/
theorem c10_dispose_null_noop (g : GState) (persist : Bool) :
    disposeStatic g none persist = (g, none) :=
  rfl
